import Mathlib

/-!
# Vec: a type-erased growable array (`vec.c`, `vec.h`)

A shallow embedding of the container of `src/vec.c`.

* `size_t` values are natural numbers; every `size_t` operation of the source is
  reduced modulo `SIZE_MAX + 1` (`sz`, `subW`).  The target is LP64, so
  `SIZE_MAX = 2^64 - 1`.
* The buffer `data` points at is a `Block`: its address and the bytes of the
  allocation.  `NULL` is `none`.
* The allocator is not part of the repository.  Each call that may reach
  `realloc` takes the allocator's answer as an argument (`Option Fresh`): `none`
  is a `NULL` return, which leaves the old block as it was, `some f` is a block
  at address `f.addr` whose first `min old new` bytes are the old ones and whose
  other bytes are taken from `f.junk`.
* `memcpy` and `memmove` outside the bounds of the block, or through a `NULL`
  `data`, are undefined behaviour: the functions that copy (`vec_push`,
  `vec_remove`) return `none` there.
* `free` is undefined on a block the allocator has already released.  The fields
  of the vector do not say whether the block `data` points at is still held by
  the allocator, so `vec_destroy` takes that as an argument (`Lifetime`) and
  returns `none` on a double free.  Under the answers `Option Fresh` the block
  `data` points at is always live, which is what `run` passes to `vec_destroy`;
  an allocator that releases the old block when it answers `NULL` to a request
  of 0 bytes (ISO C leaves this to the implementation) is described by
  `push_lifetime`.
-/

namespace CVec

/-- One byte of storage. Bytes are only copied, never computed with. -/
abbrev Byte := Nat

/-- The largest `size_t` (LP64). -/
def SIZE_MAX : Nat := 18446744073709551615

/-- Reduction of an exact result to `size_t`. -/
def sz (n : Nat) : Nat := n % (SIZE_MAX + 1)

/-- The `size_t` subtraction `a - b` of two `size_t` values: exact when
`b <= a`, and `a - b + (SIZE_MAX + 1)` when it wraps. -/
def subW (a b : Nat) : Nat := if b ≤ a then a - b else a + (SIZE_MAX + 1) - b

/-- An allocation: where it is and what it holds. -/
structure Block where
  addr : Nat
  bytes : List Byte
deriving DecidableEq

/-- The fields of `struct Vec` (the method table of the non-LITE build is constant). -/
structure Vec where
  data : Option Block
  len : Nat
  capacity : Nat
  elem_size : Nat
deriving DecidableEq

/-- A successful answer of the allocator: the address of the block and the
indeterminate bytes it holds beyond the ones carried over. -/
structure Fresh where
  addr : Nat
  junk : List Byte
deriving DecidableEq

/-- Contents of a block of `size` bytes obtained from one holding `old`. -/
def resize (old : List Byte) (size : Nat) (junk : List Byte) : List Byte :=
  old.take size ++ (junk ++ List.replicate size 0).take (size - old.length)

/-- The bytes of the block a pointer points at (none for `NULL`). -/
def contents (p : Option Block) : List Byte :=
  match p with
  | none => []
  | some b => b.bytes

/-- The result of `realloc(p, size)` when the allocator answers `o`. -/
def realloc (p : Option Block) (size : Nat) (o : Option Fresh) : Option Block :=
  match o with
  | none => none
  | some f => some ⟨f.addr, resize (contents p) size f.junk⟩

/-- What the allocator holds of the block a pointer points at: still allocated,
or already released. -/
inductive Lifetime where
  | live
  | released
deriving DecidableEq

/-- The call `free(p)`: nothing to do for `NULL`, releases a live block, and is
undefined (`none`) on a block that is already released. -/
def free (p : Option Block) (l : Lifetime) : Option Unit :=
  match p, l with
  | none, _ => some ()
  | some _, Lifetime.live => some ()
  | some _, Lifetime.released => none

/-- The block after `memcpy(block + off, src, n)`; `none` when the copy leaves
the block or reads past `src`. -/
def memcpy (dst : List Byte) (off : Nat) (src : List Byte) (n : Nat) : Option (List Byte) :=
  if off + n ≤ dst.length ∧ n ≤ src.length then
    some (dst.take off ++ (src.take n ++ dst.drop (off + n)))
  else none

/-- The block after `memmove(block + d, block + s, n)`; `none` when either range
leaves the block. -/
def memmove (buf : List Byte) (d s n : Nat) : Option (List Byte) :=
  if d + n ≤ buf.length ∧ s + n ≤ buf.length then
    some (buf.take d ++ ((buf.drop s).take n ++ buf.drop (d + n)))
  else none

/-- What a call that can fail with `ENOMEM` leaves behind: the vector, the
returned value, whether `errno` was set to `ENOMEM`, and the byte count passed
to `realloc` (`none` when `realloc` was not called). -/
structure Outcome (α : Type) where
  vec : Vec
  ret : α
  enomem : Bool
  request : Option Nat
deriving DecidableEq

/-- What `vec_remove` leaves behind: the vector, the returned `int`, and the byte
count passed to `memmove` (`none` when `memmove` was not called). -/
structure Removed where
  vec : Vec
  ret : Nat
  moved : Option Nat
deriving DecidableEq

/-- What `vec_shrink` leaves behind: the vector and the byte count passed to
`realloc` (`none` when `realloc` was not called). -/
structure Shrunk where
  vec : Vec
  request : Option Nat
deriving DecidableEq

/-- Embeds `vec_new` (vec.c:3). -/
def vec_new (elem_size : Nat) : Vec :=
  { data := none, len := 0, capacity := 0, elem_size := elem_size }

/-- Lines 71-75 of `vec_push`: the copy into slot `len`, `len++`, `return dest`. -/
def push_copy (v : Vec) (elem : List Byte) (request : Option Nat) :
    Option (Outcome (Option Nat)) :=
  match v.data with
  | none => none
  | some b =>
    let off := sz (v.len * v.elem_size)
    match memcpy b.bytes off elem v.elem_size with
    | none => none
    | some bytes =>
      some { vec := { v with data := some ⟨b.addr, bytes⟩, len := sz (v.len + 1) },
             ret := some (b.addr + off), enomem := false, request := request }

/-- Lines 33-50 of `vec_push`: the choice of `new_cap`; `none` is the first
overflow return. -/
def push_new_cap (v : Vec) : Option Nat :=
  if v.capacity = 0 then some 1
  else if v.elem_size ≠ 0 ∧ v.capacity > SIZE_MAX / 2 / v.elem_size then none
  else if v.elem_size = 0 ∧ v.capacity > SIZE_MAX / 2 then some 0
  else some (sz (v.capacity * 2))

/-- Embeds `vec_push` (vec.c:28). `ret = none` is a `NULL` return. -/
def vec_push (v : Vec) (elem : List Byte) (o : Option Fresh) :
    Option (Outcome (Option Nat)) :=
  if v.len = v.capacity then
    match push_new_cap v with
    | none => some { vec := v, ret := none, enomem := true, request := none }
    | some new_cap =>
      if v.elem_size ≠ 0 ∧ new_cap > SIZE_MAX / v.elem_size then
        some { vec := v, ret := none, enomem := true, request := none }
      else
        match realloc v.data (sz (new_cap * v.elem_size)) o with
        | none =>
          some { vec := v, ret := none, enomem := true,
                 request := some (sz (new_cap * v.elem_size)) }
        | some tmp =>
          push_copy { v with data := some tmp, capacity := new_cap } elem
            (some (sz (new_cap * v.elem_size)))
  else push_copy v elem none

/-- Embeds `vec_pop` (vec.c:78). -/
def vec_pop (v : Vec) : Vec :=
  if v.len > 0 then { v with len := subW v.len 1 } else v

/-- Embeds `vec_shrink` (vec.c:88). -/
def vec_shrink (v : Vec) (o : Option Fresh) : Shrunk :=
  if v.len = 0 then
    { vec := { v with data := none, capacity := 0 }, request := none }
  else
    match realloc v.data (sz (v.len * v.elem_size)) o with
    | none => { vec := v, request := some (sz (v.len * v.elem_size)) }
    | some tmp =>
      { vec := { v with data := some tmp, capacity := v.len },
        request := some (sz (v.len * v.elem_size)) }

/-- Embeds `vec_at` (vec.c:112). `none` is `NULL`. -/
def vec_at (v : Vec) (i : Nat) : Option Nat :=
  match v.data with
  | none => none
  | some b => if i ≥ v.len then none else some (b.addr + sz (i * v.elem_size))

/-- Embeds `vec_destroy` (vec.c:122): `free(v->data)`, then the four stores. `l`
is what the allocator holds of the block `data` points at; `none` is the
undefined behaviour of a double free. -/
def vec_destroy (v : Vec) (l : Lifetime) : Option Vec :=
  match free v.data l with
  | none => none
  | some _ => some { data := none, len := 0, capacity := 0, elem_size := 0 }

/-- What the allocator holds of the block `data` points at after a `vec_push`
that left the outcome `r`, when it held `l` before. A block `realloc` answered
with is live; `data` is untouched when `realloc` was not called or answered
`NULL`, and an allocator with `releases = true` has released the old block when
it answered `NULL` to a request of 0 bytes. -/
def push_lifetime (releases : Bool) (l : Lifetime) (r : Outcome (Option Nat)) : Lifetime :=
  match r.request, r.ret with
  | none, _ => l
  | some _, some _ => Lifetime.live
  | some size, none => if size = 0 ∧ releases = true then Lifetime.released else l

/-- Embeds `vec_reserve` (vec.c:133). -/
def vec_reserve (v : Vec) (new_capacity : Nat) (o : Option Fresh) : Outcome Nat :=
  if new_capacity ≤ v.capacity then
    { vec := v, ret := 1, enomem := false, request := none }
  else if v.elem_size ≠ 0 ∧ new_capacity > SIZE_MAX / v.elem_size then
    { vec := v, ret := 0, enomem := true, request := none }
  else
    match realloc v.data (sz (new_capacity * v.elem_size)) o with
    | none =>
      { vec := v, ret := 0, enomem := true,
        request := some (sz (new_capacity * v.elem_size)) }
    | some tmp =>
      { vec := { v with data := some tmp, capacity := new_capacity }, ret := 1,
        enomem := false, request := some (sz (new_capacity * v.elem_size)) }

/-- Embeds `vec_clear` (vec.c:161). -/
def vec_clear (v : Vec) : Vec := { v with len := 0 }

/-- Embeds `vec_back` (vec.c:166). -/
def vec_back (v : Vec) : Option Nat :=
  match v.data with
  | none => none
  | some b => if v.len = 0 then none else some (b.addr + sz (subW v.len 1 * v.elem_size))

/-- Embeds `vec_remove` (vec.c:176). -/
def vec_remove (v : Vec) (i : Nat) : Option Removed :=
  if i ≥ v.len then some { vec := v, ret := 0, moved := none }
  else if i < subW v.len 1 then
    match v.data with
    | none => none
    | some b =>
      let dst := sz (i * v.elem_size)
      let src := sz (sz (i + 1) * v.elem_size)
      let bytes := sz (subW (subW v.len i) 1 * v.elem_size)
      match memmove b.bytes dst src bytes with
      | none => none
      | some moved =>
        some { vec := { v with data := some ⟨b.addr, moved⟩, len := subW v.len 1 },
               ret := 1, moved := some bytes }
  else some { vec := { v with len := subW v.len 1 }, ret := 1, moved := none }

/-- Embeds `vec_begin` (vec.c:196). -/
def vec_begin (v : Vec) : Option Nat := v.data.map Block.addr

/-- Embeds `vec_end` (vec.c:201). -/
def vec_end (v : Vec) : Option Nat :=
  match v.data with
  | none => none
  | some b => some (b.addr + sz (v.len * v.elem_size))

/-! ## Sequences of calls -/

/-- One mutating call of the API, with the allocator's answer where the call can
reach `realloc`. -/
inductive Op where
  | push (elem : List Byte) (o : Option Fresh)
  | pop
  | clear
  | remove (i : Nat)
  | reserve (new_capacity : Nat) (o : Option Fresh)
  | shrink (o : Option Fresh)
  | destroy
deriving DecidableEq

/-- The `size_t` arguments of a call are `size_t` values. -/
def Op.typed : Op → Prop
  | Op.remove i => i ≤ SIZE_MAX
  | Op.reserve n _ => n ≤ SIZE_MAX
  | _ => True

instance (op : Op) : Decidable op.typed := by
  cases op <;> unfold Op.typed <;> infer_instance

/-- The vector after one call; `none` when the call has undefined behaviour.
The allocator answers of a run never release the block `data` points at, so
`vec_destroy` finds it live. -/
def Op.apply (v : Vec) : Op → Option Vec
  | Op.push elem o => (vec_push v elem o).map Outcome.vec
  | Op.pop => some (vec_pop v)
  | Op.clear => some (vec_clear v)
  | Op.remove i => (vec_remove v i).map Removed.vec
  | Op.reserve n o => some (vec_reserve v n o).vec
  | Op.shrink o => some (vec_shrink v o).vec
  | Op.destroy => vec_destroy v Lifetime.live

/-- The vector after a sequence of calls. -/
def run (v : Vec) : List Op → Option Vec
  | [] => some v
  | op :: ops => (op.apply v).bind fun w => run w ops

/-- The states a caller can reach from `vec_new(elem_size)`. -/
def Reachable (elem_size : Nat) (v : Vec) : Prop :=
  elem_size ≤ SIZE_MAX ∧
    ∃ ops : List Op, (∀ op ∈ ops, op.typed) ∧ run (vec_new elem_size) ops = some v

/-- Pushes the elements of `xs` in order, the allocator answering `os`; `none`
as soon as one push returns `NULL` (or is undefined). -/
def pushAll (v : Vec) : List (List Byte) → List (Option Fresh) → Option Vec
  | [], _ => some v
  | x :: xs, os =>
    match vec_push v x os.head?.join with
    | some r => if r.ret = none then none else pushAll r.vec xs os.tail
    | none => none

/-! ## Observations -/

/-- The `n` bytes at address `p`, when they lie in the vector's block. -/
def load (v : Vec) (p n : Nat) : Option (List Byte) :=
  match v.data with
  | none => none
  | some b =>
    if b.addr ≤ p ∧ p - b.addr + n ≤ b.bytes.length then
      some ((b.bytes.drop (p - b.addr)).take n)
    else none

/-- The bytes of slot `i` of the buffer. -/
def slot (v : Vec) (i : Nat) : List Byte :=
  match v.data with
  | none => []
  | some b => (b.bytes.drop (i * v.elem_size)).take v.elem_size

/-- The element sequence a vector holds: slots `0 .. len - 1`. -/
def elems (v : Vec) : List (List Byte) := (List.range v.len).map (slot v)

/-- The size of the block `data` points at (0 for `NULL`). -/
def bufSize (v : Vec) : Nat := (contents v.data).length

/-! ## Invariants -/

/-- The representation invariant of the spec's testable properties:
`len <= capacity`, and `capacity == 0` exactly when `data` is `NULL`. -/
def RepInv (v : Vec) : Prop :=
  v.len ≤ v.capacity ∧ (v.capacity = 0 ↔ v.data = none)

instance (v : Vec) : Decidable (RepInv v) := by unfold RepInv; infer_instance

/-- The data-model invariants: the representation invariant, and the block has
exactly `capacity * elem_size` bytes, a `size_t` value. -/
def Good (v : Vec) : Prop :=
  RepInv v ∧ bufSize v = v.capacity * v.elem_size ∧ v.capacity * v.elem_size ≤ SIZE_MAX ∧
    v.capacity ≤ SIZE_MAX ∧ v.elem_size ≤ SIZE_MAX

instance (v : Vec) : Decidable (Good v) := by unfold Good; infer_instance

/-- The condition under which `vec_push` does not take its zero-size overflow
branch (vec.c:43). -/
def NoZeroWrap (v : Vec) : Prop :=
  v.elem_size ≠ 0 ∨ v.len < v.capacity ∨ v.capacity ≤ SIZE_MAX / 2

instance (v : Vec) : Decidable (NoZeroWrap v) := by unfold NoZeroWrap; infer_instance

/-- The shape doubling growth gives the capacity: nothing allocated and nothing
stored, or a power of two that holds `len` and is less than twice `len`. -/
def Doubling (v : Vec) : Prop :=
  (v.len = 0 ∧ v.capacity = 0) ∨ ∃ k, v.capacity = 2 ^ k ∧ v.len ≤ 2 ^ k ∧ 2 ^ k < 2 * v.len

/-! ## Concrete vectors -/

/-- The five pushes of the spec's scenario, the allocator answering each request
with a zero-filled block at address 4096. -/
def five_pushes : List Op :=
  [Op.push [1, 0, 0, 0] (some ⟨4096, []⟩), Op.push [2, 0, 0, 0] (some ⟨4096, []⟩),
   Op.push [3, 0, 0, 0] (some ⟨4096, []⟩), Op.push [4, 0, 0, 0] (some ⟨4096, []⟩),
   Op.push [5, 0, 0, 0] (some ⟨4096, []⟩)]

/-- Three two-byte elements. -/
def three_pairs : List (List Byte) := [[1, 2], [3, 4], [5, 6]]

/-- Allocator answers for three pushes: blocks at 100, 200 and 300. -/
def three_answers : List (Option Fresh) :=
  [some ⟨100, [9, 9]⟩, some ⟨200, [8]⟩, some ⟨300, []⟩]

/-- The vector `three_pairs` pushed into `vec_new(2)` gives under `three_answers`. -/
def three_pairs_vec : Vec :=
  { data := some ⟨300, [1, 2, 3, 4, 5, 6, 0, 0]⟩, len := 3, capacity := 4, elem_size := 2 }

/-- A zero-size vector whose block is at address 1: `len` elements stored,
room for `capacity`. -/
def zero_size (len capacity : Nat) : Vec :=
  { data := some ⟨1, []⟩, len := len, capacity := capacity, elem_size := 0 }

/-- The calls `vec_reserve(&v, c)` and then `k` times `vec_push(&v, elem)`, the
allocator answering every request with a block at address 1. -/
def reserve_then_push (c k : Nat) : List Op :=
  Op.reserve c (some ⟨1, []⟩) :: List.replicate k (Op.push [] (some ⟨1, []⟩))

/-- The vector of the spec's scenario: `vec_new(4)` after pushing the ints
1, 2, 3, 4, 5 (little endian), which leaves a block of 8 slots at some address. -/
def five_ints : Vec :=
  { data := some ⟨4096, [1, 0, 0, 0, 2, 0, 0, 0, 3, 0, 0, 0, 4, 0, 0, 0, 5, 0, 0, 0,
                         0, 0, 0, 0, 0, 0, 0, 0, 0, 0, 0, 0]⟩,
    len := 5, capacity := 8, elem_size := 4 }

/-! ## States and traversal -/

/-- What holds of a zero-size vector in every state: the block has no bytes, a
`NULL` `data` comes with `len == 0` and `capacity == 0`, and the counters are
`size_t` values. -/
def ZeroOK (v : Vec) : Prop :=
  bufSize v = 0 ∧ (v.data = none → v.len = 0 ∧ v.capacity = 0) ∧ v.len ≤ SIZE_MAX ∧
    v.capacity ≤ SIZE_MAX

instance (v : Vec) : Decidable (ZeroOK v) := by unfold ZeroOK; infer_instance

/-- The invariant of every reachable state: the data-model invariants while the
element size is not 0, and `ZeroOK` when it is 0. -/
def Sound (v : Vec) : Prop :=
  (v.elem_size ≠ 0 → Good v) ∧ (v.elem_size = 0 → ZeroOK v)

/-- The allocated state of the spec's state machine: capacity > 0, buffer present. -/
def Allocated (v : Vec) : Prop := 0 < v.capacity ∧ v.data ≠ none

instance (v : Vec) : Decidable (Allocated v) := by unfold Allocated; infer_instance

/-- The empty state of the spec's state machine: capacity 0, no buffer. -/
def Empty (v : Vec) : Prop := v.capacity = 0 ∧ v.data = none

instance (v : Vec) : Decidable (Empty v) := by unfold Empty; infer_instance

/-- The pointers the loop `for (p = b; p != e; p += step)` visits in at most
`fuel` iterations. -/
def walk (p e step : Nat) : Nat → List Nat
  | 0 => []
  | fuel + 1 => if p = e then [] else p :: walk (p + step) e step fuel

/-- The pointers a caller visits going from `vec_begin(v)` to `vec_end(v)` one
element at a time, in at most `fuel` iterations. -/
def traverse (v : Vec) (fuel : Nat) : List Nat :=
  match vec_begin v, vec_end v with
  | some b, some e => walk b e v.elem_size fuel
  | _, _ => []

/-- A full vector of two ints (1 and 2) in a block of two slots. -/
def full_pair : Vec :=
  { data := some ⟨4096, [1, 0, 0, 0, 2, 0, 0, 0]⟩, len := 2, capacity := 2, elem_size := 4 }

/-! ## Size arithmetic -/

theorem sz_of_le {n : Nat} (h : n ≤ SIZE_MAX) : sz n = n := by
  unfold sz
  exact Nat.mod_eq_of_lt (by omega)

theorem sz_le (n : Nat) : sz n ≤ SIZE_MAX := by
  unfold sz
  have := Nat.mod_lt n (show SIZE_MAX + 1 > 0 by omega)
  omega

theorem subW_of_le {a b : Nat} (hb : b ≤ a) : subW a b = a - b := by
  unfold subW
  rw [if_pos hb]

theorem mul_le_of_le_div {a b : Nat} (h : a ≤ SIZE_MAX / b) : a * b ≤ SIZE_MAX := by
  rcases Nat.eq_zero_or_pos b with hb | hb
  · subst hb; simp
  · exact (Nat.le_div_iff_mul_le hb).1 h

theorem lt_mul_of_div_lt {a b : Nat} (hb : b ≠ 0) (h : SIZE_MAX / b < a) : SIZE_MAX < a * b := by
  exact (Nat.div_lt_iff_lt_mul (Nat.pos_of_ne_zero hb)).1 h

/-! ## Blocks of bytes -/

theorem getElem?_window (B : List Byte) (a m k : Nat) :
    ((B.drop a).take m)[k]? = if k < m then B[a + k]? else none := by
  simp [List.getElem?_take, List.getElem?_drop]

theorem window_congr {B C : List Byte} {a c m : Nat}
    (h : ∀ k, k < m → B[a + k]? = C[c + k]?) : (B.drop a).take m = (C.drop c).take m := by
  apply List.ext_getElem?
  intro k
  rw [getElem?_window, getElem?_window]
  split
  · rename_i hk
    exact h k hk
  · rfl

theorem memcpy_some {dst src out : List Byte} {off n : Nat} (h : memcpy dst off src n = some out) :
    off + n ≤ dst.length ∧ n ≤ src.length ∧
      out = dst.take off ++ (src.take n ++ dst.drop (off + n)) := by
  unfold memcpy at h
  split at h
  · rename_i hb
    simp only [Option.some.injEq] at h
    exact ⟨hb.1, hb.2, h.symm⟩
  · simp at h

theorem memcpy_length {dst src out : List Byte} {off n : Nat}
    (h : memcpy dst off src n = some out) : out.length = dst.length := by
  obtain ⟨h1, h2, rfl⟩ := memcpy_some h
  simp only [List.length_append, List.length_take, List.length_drop]
  omega

theorem memcpy_getElem? {dst src out : List Byte} {off n : Nat}
    (h : memcpy dst off src n = some out) (k : Nat) :
    out[k]? = if k < off then dst[k]? else if k < off + n then src[k - off]? else dst[k]? := by
  obtain ⟨h1, h2, rfl⟩ := memcpy_some h
  have e1 : (dst.take off).length = off := by rw [List.length_take]; omega
  have e2 : (src.take n).length = n := by rw [List.length_take]; omega
  rw [List.getElem?_append, e1]
  split
  · rename_i hk
    rw [List.getElem?_take_of_lt hk]
  · rename_i hk
    rw [List.getElem?_append, e2]
    split
    · rename_i hk2
      rw [if_pos (by omega), List.getElem?_take_of_lt hk2]
    · rename_i hk2
      rw [if_neg (by omega), List.getElem?_drop]
      congr 1
      omega

theorem memmove_some {buf out : List Byte} {d s n : Nat} (h : memmove buf d s n = some out) :
    d + n ≤ buf.length ∧ s + n ≤ buf.length ∧
      out = buf.take d ++ ((buf.drop s).take n ++ buf.drop (d + n)) := by
  unfold memmove at h
  split at h
  · rename_i hb
    simp only [Option.some.injEq] at h
    exact ⟨hb.1, hb.2, h.symm⟩
  · simp at h

theorem memmove_length {buf out : List Byte} {d s n : Nat}
    (h : memmove buf d s n = some out) : out.length = buf.length := by
  obtain ⟨h1, h2, rfl⟩ := memmove_some h
  simp only [List.length_append, List.length_take, List.length_drop]
  omega

theorem memmove_getElem? {buf out : List Byte} {d s n : Nat}
    (h : memmove buf d s n = some out) (k : Nat) :
    out[k]? = if k < d then buf[k]? else if k < d + n then buf[s + (k - d)]? else buf[k]? := by
  obtain ⟨h1, h2, rfl⟩ := memmove_some h
  have e1 : (buf.take d).length = d := by rw [List.length_take]; omega
  have e2 : ((buf.drop s).take n).length = n := by
    rw [List.length_take, List.length_drop]; omega
  rw [List.getElem?_append, e1]
  split
  · rename_i hk
    rw [List.getElem?_take_of_lt hk]
  · rename_i hk
    rw [List.getElem?_append, e2]
    split
    · rename_i hk2
      rw [if_pos (by omega), getElem?_window, if_pos hk2]
    · rename_i hk2
      rw [if_neg (by omega), List.getElem?_drop]
      congr 1
      omega

theorem resize_length (old junk : List Byte) (size : Nat) :
    (resize old size junk).length = size := by
  unfold resize
  simp only [List.length_append, List.length_take, List.length_replicate]
  omega

theorem resize_getElem? (old junk : List Byte) {size k : Nat} (hk : k < size)
    (hk2 : k < old.length) : (resize old size junk)[k]? = old[k]? := by
  unfold resize
  rw [List.getElem?_append_left (by rw [List.length_take]; omega),
    List.getElem?_take_of_lt hk]

/-! ## The copy of `vec_push` -/

theorem push_copy_some {v : Vec} {elem : List Byte} {q : Option Nat}
    {r : Outcome (Option Nat)} (h : push_copy v elem q = some r) :
    ∃ b bytes, v.data = some b ∧
      memcpy b.bytes (sz (v.len * v.elem_size)) elem v.elem_size = some bytes ∧
      r = { vec := { v with data := some ⟨b.addr, bytes⟩, len := sz (v.len + 1) },
            ret := some (b.addr + sz (v.len * v.elem_size)), enomem := false, request := q } := by
  unfold push_copy at h
  split at h
  · simp at h
  · rename_i b hb
    dsimp only at h
    split at h
    · simp at h
    · rename_i bytes hbytes
      simp only [Option.some.injEq] at h
      exact ⟨b, bytes, hb, hbytes, h.symm⟩

theorem push_copy_ret {v : Vec} {elem : List Byte} {q : Option Nat} {r : Outcome (Option Nat)}
    (h : push_copy v elem q = some r) : r.ret ≠ none := by
  obtain ⟨b, bytes, -, -, rfl⟩ := push_copy_some h
  simp

/-- A `NULL` return of `vec_push` comes from one of the three early returns. -/
theorem vec_push_null {v : Vec} {elem : List Byte} {o : Option Fresh} {r : Outcome (Option Nat)}
    (h : vec_push v elem o = some r) (hr : r.ret = none) : r.vec = v ∧ r.enomem = true := by
  unfold vec_push at h
  split at h
  · split at h
    · simp only [Option.some.injEq] at h
      subst h
      simp
    · split at h
      · simp only [Option.some.injEq] at h
        subst h
        simp
      · split at h
        · simp only [Option.some.injEq] at h
          subst h
          simp
        · exact absurd hr (push_copy_ret h)
  · exact absurd hr (push_copy_ret h)

theorem vec_reserve_zero {v : Vec} {n : Nat} {o : Option Fresh}
    (h : (vec_reserve v n o).ret = 0) :
    (vec_reserve v n o).vec = v ∧ (vec_reserve v n o).enomem = true := by
  unfold vec_reserve at h ⊢
  split
  · rename_i h1
    simp [h1] at h
  · rename_i h1
    split
    · simp
    · rename_i h2
      split
      · simp
      · rename_i tmp htmp
        simp [h1, h2, htmp] at h

/-- C10. Failure atomicity: a `NULL` return of `vec_push`, a 0 return of
`vec_reserve` (overflow guard or allocator), and a `vec_shrink` whose `realloc`
was called and answered `NULL`, all leave the vector (pointer, stored bytes,
`len`, `capacity`, `elem_size`) exactly as it was. -/
theorem failure_atomicity (v : Vec) :
    (∀ elem o r, vec_push v elem o = some r → r.ret = none → r.vec = v) ∧
    (∀ n o, (vec_reserve v n o).ret = 0 → (vec_reserve v n o).vec = v) ∧
    ((vec_shrink v none).request ≠ none → (vec_shrink v none).vec = v) := by
  refine ⟨fun elem o r h hr => (vec_push_null h hr).1, fun n o h => (vec_reserve_zero h).1, ?_⟩
  unfold vec_shrink
  split
  · simp
  · simp [realloc]

/-! ## The two paths of `vec_push` -/

theorem vec_push_room {v : Vec} (elem : List Byte) (o : Option Fresh)
    (h : v.len ≠ v.capacity) : vec_push v elem o = push_copy v elem none := by
  unfold vec_push
  rw [if_neg h]

theorem vec_push_grow {v : Vec} (elem : List Byte) (f : Fresh) {nc : Nat}
    (h : v.len = v.capacity) (hnc : push_new_cap v = some nc)
    (hg : ¬(v.elem_size ≠ 0 ∧ nc > SIZE_MAX / v.elem_size)) :
    vec_push v elem (some f) =
      push_copy { v with
          data := some ⟨f.addr, resize (contents v.data) (sz (nc * v.elem_size)) f.junk⟩,
          capacity := nc } elem (some (sz (nc * v.elem_size))) := by
  unfold vec_push
  rw [if_pos h, hnc]
  simp only [realloc]
  rw [if_neg hg]

/-- A push that returned a slot either had room, or grew the block. -/
theorem vec_push_success {v : Vec} {elem : List Byte} {o : Option Fresh}
    {r : Outcome (Option Nat)} (h : vec_push v elem o = some r) (hr : r.ret ≠ none) :
    (v.len ≠ v.capacity ∧ push_copy v elem none = some r) ∨
    (v.len = v.capacity ∧ ∃ nc f, push_new_cap v = some nc ∧
      ¬(v.elem_size ≠ 0 ∧ nc > SIZE_MAX / v.elem_size) ∧ o = some f ∧
      push_copy { v with
          data := some ⟨f.addr, resize (contents v.data) (sz (nc * v.elem_size)) f.junk⟩,
          capacity := nc } elem (some (sz (nc * v.elem_size))) = some r) := by
  by_cases hlc : v.len = v.capacity
  · right
    refine ⟨hlc, ?_⟩
    unfold vec_push at h
    rw [if_pos hlc] at h
    split at h
    · simp only [Option.some.injEq] at h
      subst h
      simp at hr
    · rename_i nc hnc
      split at h
      · simp only [Option.some.injEq] at h
        subst h
        simp at hr
      · rename_i hg
        cases o with
        | none =>
          simp only [realloc, Option.some.injEq] at h
          subst h
          simp at hr
        | some f =>
          simp only [realloc] at h
          exact ⟨nc, f, hnc, hg, rfl, h⟩
  · left
    rw [vec_push_room elem o hlc] at h
    exact ⟨hlc, h⟩

/-! ## Vectors that satisfy the data-model invariants -/

theorem Good.block {v : Vec} (h : Good v) (hc : v.capacity ≠ 0) :
    ∃ b, v.data = some b ∧ b.bytes.length = v.capacity * v.elem_size := by
  obtain ⟨⟨-, hnull⟩, hsize, -⟩ := h
  cases hd : v.data with
  | none => exact absurd (hnull.2 hd) hc
  | some b =>
    refine ⟨b, rfl, ?_⟩
    simpa [bufSize, contents, hd] using hsize

theorem slot_some {v : Vec} {b : Block} (h : v.data = some b) (i : Nat) :
    slot v i = (b.bytes.drop (i * v.elem_size)).take v.elem_size := by
  simp [slot, h]

theorem slot_mul_le {i n : Nat} (es : Nat) (h : i < n) : i * es + es ≤ n * es := by
  have h1 : (i + 1) * es ≤ n * es := Nat.mul_le_mul_right es h
  have h2 : (i + 1) * es = i * es + es := by ring
  omega

/-- The copy of `vec_push` into a block with a free slot is defined and writes
slot `len`. -/
theorem push_copy_room {w : Vec} {b : Block} {elem : List Byte} (q : Option Nat)
    (hd : w.data = some b) (hsize : b.bytes.length = w.capacity * w.elem_size)
    (hfit : w.capacity * w.elem_size ≤ SIZE_MAX) (hcap : w.capacity ≤ SIZE_MAX)
    (hlt : w.len < w.capacity) (hel : w.elem_size ≤ elem.length) :
    ∃ bytes, memcpy b.bytes (w.len * w.elem_size) elem w.elem_size = some bytes ∧
      push_copy w elem q =
        some { vec := { w with data := some ⟨b.addr, bytes⟩, len := w.len + 1 },
               ret := some (b.addr + w.len * w.elem_size), enomem := false, request := q } := by
  have h1 := slot_mul_le w.elem_size hlt
  have hoff : sz (w.len * w.elem_size) = w.len * w.elem_size := sz_of_le (by omega)
  have hlen : sz (w.len + 1) = w.len + 1 := sz_of_le (by omega)
  have hm : memcpy b.bytes (w.len * w.elem_size) elem w.elem_size =
      some (b.bytes.take (w.len * w.elem_size) ++
        (elem.take w.elem_size ++ b.bytes.drop (w.len * w.elem_size + w.elem_size))) := by
    unfold memcpy
    rw [if_pos ⟨by omega, hel⟩]
  refine ⟨_, hm, ?_⟩
  unfold push_copy
  simp only [hd, hoff, hlen, hm]

theorem elems_after_copy {w : Vec} {b : Block} {elem bytes : List Byte}
    (hd : w.data = some b)
    (hm : memcpy b.bytes (w.len * w.elem_size) elem w.elem_size = some bytes) :
    elems { w with data := some ⟨b.addr, bytes⟩, len := w.len + 1 } =
      elems w ++ [elem.take w.elem_size] := by
  obtain ⟨hb1, hb2, -⟩ := memcpy_some hm
  unfold elems
  simp only [List.range_succ, List.map_append, List.map_cons, List.map_nil]
  congr 1
  · apply List.map_congr_left
    intro j hj
    have hj2 : j < w.len := List.mem_range.1 hj
    have h1 := slot_mul_le w.elem_size hj2
    rw [slot_some (b := ⟨b.addr, bytes⟩) rfl, slot_some hd]
    dsimp only
    apply window_congr
    intro k hk
    rw [memcpy_getElem? hm, if_pos (by omega)]
  · rw [slot_some (b := ⟨b.addr, bytes⟩) rfl]
    dsimp only
    congr 1
    apply List.ext_getElem?
    intro k
    rw [getElem?_window, List.getElem?_take, memcpy_getElem? hm]
    split
    · rename_i hk
      rw [if_neg (by omega), if_pos (by omega)]
      congr 1
      omega
    · rfl

theorem good_after_copy {w : Vec} {b : Block} {elem bytes : List Byte} (hg : Good w)
    (hd : w.data = some b) (hlt : w.len < w.capacity)
    (hm : memcpy b.bytes (w.len * w.elem_size) elem w.elem_size = some bytes) :
    Good { w with data := some ⟨b.addr, bytes⟩, len := w.len + 1 } := by
  obtain ⟨⟨h1, h2⟩, h3, h4, h5, h6⟩ := hg
  have hl := memcpy_length hm
  simp only [bufSize, contents, hd] at h3
  refine ⟨⟨hlt, ?_⟩, ?_, h4, h5, h6⟩
  · simp only [reduceCtorEq, iff_false]
    omega
  · simp only [bufSize, contents]
    omega

/-- A block of `n * elem_size` bytes obtained by `realloc` holds the same
elements, as long as all `len` of them fit. -/
theorem elems_resize {v : Vec} (hg : Good v) {n : Nat} (hn : v.len ≤ n) (a c : Nat)
    (junk : List Byte) :
    elems { v with data := some ⟨a, resize (contents v.data) (n * v.elem_size) junk⟩,
                   capacity := c } = elems v := by
  unfold elems
  apply List.map_congr_left
  intro j hj
  have hj2 : j < v.len := List.mem_range.1 hj
  have hc : v.capacity ≠ 0 := by
    have := hg.1.1
    omega
  obtain ⟨b, hb, hsize⟩ := hg.block hc
  have h1 := slot_mul_le v.elem_size hj2
  have h2 : v.len * v.elem_size ≤ n * v.elem_size := Nat.mul_le_mul_right _ hn
  have h3 : v.len * v.elem_size ≤ v.capacity * v.elem_size := Nat.mul_le_mul_right _ hg.1.1
  rw [slot_some (b := ⟨a, resize (contents v.data) (n * v.elem_size) junk⟩) rfl, slot_some hb]
  dsimp only
  apply window_congr
  intro k hk
  simp only [contents, hb]
  exact resize_getElem? _ _ (by omega) (by omega)

theorem good_resize {v : Vec} (hg : Good v) {n : Nat} (hn : v.len ≤ n) (hpos : n ≠ 0)
    (hfit : n * v.elem_size ≤ SIZE_MAX) (hle : n ≤ SIZE_MAX) (a : Nat) (junk : List Byte) :
    Good { v with data := some ⟨a, resize (contents v.data) (n * v.elem_size) junk⟩,
                  capacity := n } := by
  obtain ⟨⟨h1, h2⟩, h3, h4, h5, h6⟩ := hg
  refine ⟨⟨hn, ?_⟩, ?_, hfit, hle, h6⟩
  · simp only [reduceCtorEq, iff_false]
    exact hpos
  · simp only [bufSize, contents, resize_length]

/-- The capacity `vec_push` grows to, away from the zero-size overflow branch. -/
theorem push_new_cap_good {v : Vec} {nc : Nat}
    (hn : v.elem_size ≠ 0 ∨ v.capacity ≤ SIZE_MAX / 2) (h : push_new_cap v = some nc)
    (hg2 : ¬(v.elem_size ≠ 0 ∧ nc > SIZE_MAX / v.elem_size)) :
    nc = (if v.capacity = 0 then 1 else 2 * v.capacity) ∧ nc * v.elem_size ≤ SIZE_MAX ∧
      nc ≤ SIZE_MAX ∧ v.capacity < nc := by
  have hfit : nc * v.elem_size ≤ SIZE_MAX := by
    by_cases he : v.elem_size = 0
    · rw [he]; simp
    · have : nc ≤ SIZE_MAX / v.elem_size := by
        by_contra hc
        exact hg2 ⟨he, by omega⟩
      exact mul_le_of_le_div this
  have h2cap : v.capacity ≠ 0 → ¬(v.elem_size ≠ 0 ∧ v.capacity > SIZE_MAX / 2 / v.elem_size) →
      v.capacity * 2 ≤ SIZE_MAX := by
    intro hc hgd
    by_cases he : v.elem_size = 0
    · have := hn.resolve_left (by simpa using he)
      omega
    · have h1 : v.capacity ≤ SIZE_MAX / 2 / v.elem_size := by
        by_contra hc2
        exact hgd ⟨he, by omega⟩
      have h2 : v.capacity * v.elem_size ≤ SIZE_MAX / 2 :=
        (Nat.le_div_iff_mul_le (Nat.pos_of_ne_zero he)).1 h1
      have h3 : v.capacity ≤ v.capacity * v.elem_size :=
        Nat.le_mul_of_pos_right _ (Nat.pos_of_ne_zero he)
      omega
  unfold push_new_cap at h
  split at h
  · rename_i hc
    simp only [Option.some.injEq] at h
    subst h
    have hmax : 1 ≤ SIZE_MAX := by unfold SIZE_MAX; omega
    exact ⟨by rw [if_pos hc], hfit, hmax, by omega⟩
  · rename_i hc
    split at h
    · simp at h
    · rename_i hgd
      have hdbl := h2cap hc hgd
      split at h
      · rename_i hz
        have := hn.resolve_left (by simpa using hz.1)
        omega
      · simp only [Option.some.injEq] at h
        rw [sz_of_le hdbl] at h
        subst h
        exact ⟨by rw [if_neg hc]; omega, hfit, hdbl, by omega⟩

/-- What a push that returned a slot did, on a vector that satisfies the
invariants and is not about to take the zero-size overflow branch. -/
theorem vec_push_spec {v : Vec} {elem : List Byte} {o : Option Fresh}
    {r : Outcome (Option Nat)} (hg : Good v) (hn : NoZeroWrap v)
    (h : vec_push v elem o = some r) (hr : r.ret ≠ none) :
    ∃ b, r.vec.data = some b ∧ Good r.vec ∧ r.vec.len = v.len + 1 ∧
      r.vec.elem_size = v.elem_size ∧
      r.vec.capacity = (if v.len < v.capacity then v.capacity
        else if v.capacity = 0 then 1 else 2 * v.capacity) ∧
      elems r.vec = elems v ++ [elem.take v.elem_size] ∧
      r.ret = some (b.addr + v.len * v.elem_size) ∧ v.elem_size ≤ elem.length := by
  rcases vec_push_success h hr with ⟨hlc, hcopy⟩ | ⟨hlc, nc, f, hnc, hg2, -, hcopy⟩
  · have hlt : v.len < v.capacity := by
      have := hg.1.1
      omega
    obtain ⟨b, hb, hsize⟩ := hg.block (by omega)
    obtain ⟨b2, bytes0, hb2, hm0, -⟩ := push_copy_some hcopy
    have hel := (memcpy_some hm0).2.1
    obtain ⟨bytes, hm, hpc⟩ := push_copy_room none hb hsize hg.2.2.1 hg.2.2.2.1 hlt hel
    rw [hpc] at hcopy
    simp only [Option.some.injEq] at hcopy
    subst hcopy
    refine ⟨_, rfl, good_after_copy hg hb hlt hm, rfl, rfl, ?_, elems_after_copy hb hm, rfl, hel⟩
    simp only [if_pos hlt]
  · have hn2 : v.elem_size ≠ 0 ∨ v.capacity ≤ SIZE_MAX / 2 := by
      rcases hn with h1 | h1 | h1
      · exact Or.inl h1
      · omega
      · exact Or.inr h1
    obtain ⟨hval, hfit, hle, hlt⟩ := push_new_cap_good hn2 hnc hg2
    rw [sz_of_le hfit] at hcopy
    have hw : Good { v with
        data := some ⟨f.addr, resize (contents v.data) (nc * v.elem_size) f.junk⟩,
        capacity := nc } := good_resize hg (by omega) (by omega) hfit hle _ _
    have he := elems_resize hg (show v.len ≤ nc by omega) f.addr nc f.junk
    obtain ⟨b2, bytes0, hb2, hm0, -⟩ := push_copy_some hcopy
    have hel := (memcpy_some hm0).2.1
    obtain ⟨bytes, hm, hpc⟩ := push_copy_room (some (nc * v.elem_size))
      (w := { v with
        data := some ⟨f.addr, resize (contents v.data) (nc * v.elem_size) f.junk⟩,
        capacity := nc }) rfl (resize_length _ _ _) hfit hle (by dsimp only; omega) hel
    rw [hpc] at hcopy
    simp only [Option.some.injEq] at hcopy
    subst hcopy
    refine ⟨_, rfl, good_after_copy hw rfl (by dsimp only; omega) hm, rfl, rfl, ?_, ?_, rfl, hel⟩
    · dsimp only
      rw [if_neg (by omega), hval]
    · rw [elems_after_copy rfl hm, he]

/-- On a vector that satisfies the invariants, the only obstacles to a push are
the overflow returns and the allocator; the copy itself is always defined. -/
theorem vec_push_defined {v : Vec} (hg : Good v) {elem : List Byte} (o : Option Fresh)
    (hel : v.elem_size ≤ elem.length) : ∃ r, vec_push v elem o = some r := by
  by_cases hlc : v.len = v.capacity
  · unfold vec_push
    rw [if_pos hlc]
    split
    · exact ⟨_, rfl⟩
    · rename_i nc hnc
      split
      · exact ⟨_, rfl⟩
      · rename_i hg2
        cases o with
        | none => exact ⟨_, rfl⟩
        | some f =>
          simp only [realloc]
          by_cases hn2 : v.elem_size ≠ 0 ∨ v.capacity ≤ SIZE_MAX / 2
          · obtain ⟨hval, hfit, hle, hlt⟩ := push_new_cap_good hn2 hnc hg2
            rw [sz_of_le hfit]
            obtain ⟨bytes, hm, hpc⟩ := push_copy_room
              (w := { v with
                data := some ⟨f.addr, resize (contents v.data) (nc * v.elem_size) f.junk⟩,
                capacity := nc }) (q := some (nc * v.elem_size)) rfl (resize_length _ _ _) hfit hle
                (by dsimp only; omega) hel
            exact ⟨_, hpc⟩
          · have hz : v.elem_size = 0 := by
              by_contra hc
              exact hn2 (Or.inl hc)
            unfold push_copy memcpy
            simp [hz, resize_length, sz]
  · have hlt : v.len < v.capacity := by
      have := hg.1.1
      omega
    obtain ⟨b, hb, hsize⟩ := hg.block (by omega)
    obtain ⟨bytes, hm, hpc⟩ := push_copy_room none hb hsize hg.2.2.1 hg.2.2.2.1 hlt hel
    rw [vec_push_room elem o hlc]
    exact ⟨_, hpc⟩

/-! ## Reading elements -/

theorem vec_at_ge (v : Vec) {i : Nat} (h : v.len ≤ i) : vec_at v i = none := by
  unfold vec_at
  split
  · rfl
  · rw [if_pos h]

theorem elems_length (v : Vec) : (elems v).length = v.len := by
  simp [elems]

theorem elems_getElem? (v : Vec) {i : Nat} (hi : i < v.len) :
    (elems v)[i]? = some (slot v i) := by
  unfold elems
  rw [List.getElem?_map, List.getElem?_range hi]
  rfl

/-- On a vector that satisfies the invariants, `vec_at` of a live index is the
slot at byte offset `i * elem_size`, and the bytes there are element `i`. -/
theorem vec_at_good {v : Vec} (hg : Good v) {i : Nat} (hi : i < v.len) :
    ∃ b, v.data = some b ∧ vec_at v i = some (b.addr + i * v.elem_size) ∧
      load v (b.addr + i * v.elem_size) v.elem_size = some (slot v i) := by
  have hle := hg.1.1
  obtain ⟨b, hb, hsize⟩ := hg.block (by omega)
  have h1 := slot_mul_le v.elem_size hi
  have h2 : v.len * v.elem_size ≤ v.capacity * v.elem_size := Nat.mul_le_mul_right _ hle
  have h3 := hg.2.2.1
  refine ⟨b, hb, ?_, ?_⟩
  · unfold vec_at
    simp only [hb]
    rw [if_neg (by omega), sz_of_le (by omega)]
  · unfold load
    simp only [hb]
    rw [if_pos ⟨by omega, by omega⟩, slot_some hb]
    congr 3
    omega

theorem vec_back_good {v : Vec} (hg : Good v) (hpos : 0 < v.len) :
    vec_back v = vec_at v (v.len - 1) := by
  have hle := hg.1.1
  have hcap := hg.2.2.2.1
  obtain ⟨b, hb, -⟩ := hg.block (by omega)
  unfold vec_back vec_at
  simp only [hb]
  rw [if_neg (by omega), if_neg (by omega), subW_of_le (by omega)]

/-! ## `vec_remove` -/

theorem vec_remove_some {v : Vec} {i : Nat} {r : Removed} (h : vec_remove v i = some r) :
    (v.len ≤ i ∧ r = { vec := v, ret := 0, moved := none }) ∨
    (i < v.len ∧ ¬ i < subW v.len 1 ∧
      r = { vec := { v with len := subW v.len 1 }, ret := 1, moved := none }) ∨
    (i < v.len ∧ i < subW v.len 1 ∧ ∃ b moved, v.data = some b ∧
      memmove b.bytes (sz (i * v.elem_size)) (sz (sz (i + 1) * v.elem_size))
        (sz (subW (subW v.len i) 1 * v.elem_size)) = some moved ∧
      r = { vec := { v with data := some ⟨b.addr, moved⟩, len := subW v.len 1 }, ret := 1,
            moved := some (sz (subW (subW v.len i) 1 * v.elem_size)) }) := by
  unfold vec_remove at h
  split at h
  · rename_i h1
    simp only [Option.some.injEq] at h
    exact Or.inl ⟨h1, h.symm⟩
  · rename_i h1
    right
    split at h
    · rename_i h2
      right
      split at h
      · simp at h
      · rename_i b hb
        dsimp only at h
        split at h
        · simp at h
        · rename_i moved hm
          simp only [Option.some.injEq] at h
          exact ⟨by omega, h2, b, moved, hb, hm, h.symm⟩
    · rename_i h2
      left
      simp only [Option.some.injEq] at h
      exact ⟨by omega, h2, h.symm⟩

theorem elems_getElem?_if (v : Vec) (k : Nat) :
    (elems v)[k]? = if k < v.len then some (slot v k) else none := by
  split
  · rename_i hk
    exact elems_getElem? v hk
  · rename_i hk
    exact List.getElem?_eq_none (by rw [elems_length]; omega)

/-- The element sequence after erasing slot `i`, from what the slots of the new
vector hold. -/
theorem elems_eq_eraseIdx {v w : Vec} {i : Nat} (hi : i < v.len) (hlen : w.len = v.len - 1)
    (hlo : ∀ k, k < i → slot w k = slot v k)
    (hhi : ∀ k, i ≤ k → k < v.len - 1 → slot w k = slot v (k + 1)) :
    elems w = (elems v).eraseIdx i := by
  apply List.ext_getElem?
  intro k
  rw [List.getElem?_eraseIdx, elems_getElem?_if, elems_getElem?_if, elems_getElem?_if, hlen]
  by_cases hk : k < i
  · rw [if_pos hk, if_pos (by omega), if_pos (by omega), hlo k hk]
  · rw [if_neg hk]
    by_cases hk2 : k < v.len - 1
    · rw [if_pos hk2, if_pos (by omega), hhi k (by omega) hk2]
    · rw [if_neg hk2, if_neg (by omega)]

/-- On a vector that satisfies the invariants, removing a live index is defined,
returns 1 and erases exactly that element. -/
theorem vec_remove_good {v : Vec} (hg : Good v) {i : Nat} (hi : i < v.len) :
    ∃ r, vec_remove v i = some r ∧ r.ret = 1 ∧ r.vec.len = v.len - 1 ∧
      r.vec.capacity = v.capacity ∧ r.vec.elem_size = v.elem_size ∧
      elems r.vec = (elems v).eraseIdx i ∧ Good r.vec ∧
      (i = v.len - 1 → r.vec.data = v.data ∧ r.moved = none) ∧
      (i < v.len - 1 → r.moved = some ((v.len - i - 1) * v.elem_size)) := by
  obtain ⟨⟨hle, hnull⟩, hsize, hfit, hcap, hes⟩ := hg
  have hsub : subW v.len 1 = v.len - 1 := subW_of_le (by omega)
  by_cases hlast : i < v.len - 1
  · obtain ⟨b, hb, hbs⟩ := Good.block ⟨⟨hle, hnull⟩, hsize, hfit, hcap, hes⟩ (by omega)
    have a1 : (i + 1) * v.elem_size = i * v.elem_size + v.elem_size := by ring
    have a2 : (v.len - i - 1) * v.elem_size + i * v.elem_size = (v.len - 1) * v.elem_size := by
      have h0 : v.len - i - 1 + i = v.len - 1 := by omega
      rw [← Nat.add_mul, h0]
    have a3 : (v.len - 1) * v.elem_size + v.elem_size = v.len * v.elem_size := by
      have h0 : v.len - 1 + 1 = v.len := by omega
      have h1 : (v.len - 1 + 1) * v.elem_size = (v.len - 1) * v.elem_size + v.elem_size := by
        ring
      rw [← h1, h0]
    have a4 : v.len * v.elem_size ≤ v.capacity * v.elem_size := Nat.mul_le_mul_right _ hle
    have e1 : sz (i * v.elem_size) = i * v.elem_size := sz_of_le (by omega)
    have e2 : sz (i + 1) = i + 1 := sz_of_le (by omega)
    have e3 : sz ((i + 1) * v.elem_size) = (i + 1) * v.elem_size := sz_of_le (by omega)
    have e0 : subW v.len i = v.len - i := subW_of_le (by omega)
    have e4 : subW (subW v.len i) 1 = v.len - i - 1 := by
      rw [e0]
      exact subW_of_le (by omega)
    have e5 : sz ((v.len - i - 1) * v.elem_size) = (v.len - i - 1) * v.elem_size :=
      sz_of_le (by omega)
    have hm0 : ∃ moved, memmove b.bytes (i * v.elem_size) ((i + 1) * v.elem_size)
        ((v.len - i - 1) * v.elem_size) = some moved := by
      unfold memmove
      rw [if_pos ⟨by omega, by omega⟩]
      exact ⟨_, rfl⟩
    obtain ⟨moved, hm⟩ := hm0
    refine ⟨{ vec := { v with data := some ⟨b.addr, moved⟩, len := v.len - 1 }, ret := 1,
              moved := some ((v.len - i - 1) * v.elem_size) }, ?_, rfl, rfl, rfl, rfl, ?_, ?_,
            fun h => absurd h (by omega), fun _ => rfl⟩
    · unfold vec_remove
      rw [if_neg (by omega), hsub, if_pos hlast]
      simp only [hb, e1, e2, e3, e4, e5, hm]
    · apply elems_eq_eraseIdx hi rfl
      · intro k hk
        have := slot_mul_le v.elem_size hk
        rw [slot_some (b := ⟨b.addr, moved⟩) rfl, slot_some hb]
        dsimp only
        apply window_congr
        intro t ht
        rw [memmove_getElem? hm, if_pos (by omega)]
      · intro k hk1 hk2
        have h1 := slot_mul_le v.elem_size hk2
        have h2 : i * v.elem_size ≤ k * v.elem_size := Nat.mul_le_mul_right _ hk1
        have h3 : (k + 1) * v.elem_size = k * v.elem_size + v.elem_size := by ring
        rw [slot_some (b := ⟨b.addr, moved⟩) rfl, slot_some hb]
        dsimp only
        apply window_congr
        intro t ht
        have hx : (i + 1) * v.elem_size + (k * v.elem_size + t - i * v.elem_size) =
            (k + 1) * v.elem_size + t := by omega
        rw [memmove_getElem? hm, if_neg (by omega), if_pos (by omega), hx]
    · have hl := memmove_length hm
      simp only [bufSize, contents, hb] at hsize
      refine ⟨⟨?_, ?_⟩, ?_, hfit, hcap, hes⟩
      · dsimp only
        omega
      · simp only [reduceCtorEq, iff_false]
        omega
      · simp only [bufSize, contents]
        omega
  · refine ⟨{ vec := { v with len := v.len - 1 }, ret := 1, moved := none }, ?_, rfl, rfl, rfl,
            rfl, ?_, ?_, fun _ => ⟨rfl, rfl⟩, fun h => absurd h hlast⟩
    · unfold vec_remove
      rw [if_neg (by omega), hsub, if_neg hlast]
    · apply elems_eq_eraseIdx hi rfl
      · intro k _
        rfl
      · intro k hk1 hk2
        omega
    · exact ⟨⟨by dsimp only; omega, hnull⟩, hsize, hfit, hcap, hes⟩

/-- C4. Ordered removal: on a vector that satisfies the data-model invariants and
holds the element sequence `xs`, `vec_remove(v, i)` with `i < len` is defined,
returns 1, lowers `len` by one, keeps `capacity` and `elem_size`, and leaves the
sequence `xs` with its `i`-th element erased (elements before `i` stay, each
later element moves one slot left); when `i == len - 1` the block is untouched
and `memmove` is not called. -/
theorem remove_ordered (v : Vec) (xs : List (List Byte)) (i : Nat) (hg : Good v)
    (hxs : elems v = xs) (hi : i < v.len) :
    ∃ r, vec_remove v i = some r ∧ r.ret = 1 ∧ r.vec.len = v.len - 1 ∧
      r.vec.capacity = v.capacity ∧ r.vec.elem_size = v.elem_size ∧
      elems r.vec = xs.eraseIdx i ∧
      (∀ k, k < i → (elems r.vec)[k]? = xs[k]?) ∧
      (∀ k, i ≤ k → (elems r.vec)[k]? = xs[k + 1]?) ∧
      (i = v.len - 1 → r.vec.data = v.data ∧ r.moved = none) := by
  obtain ⟨r, h1, h2, h3, h4, h5, h6, -, h8, -⟩ := vec_remove_good hg hi
  subst hxs
  refine ⟨r, h1, h2, h3, h4, h5, h6, ?_, ?_, h8⟩
  · intro k hk
    rw [h6, List.getElem?_eraseIdx_of_lt _ _ _ hk]
  · intro k hk
    rw [h6, List.getElem?_eraseIdx_of_ge _ _ _ hk]

/-- C5. Out-of-range removal: `vec_remove(v, i)` with `i >= len` returns 0 and
leaves the vector as it was, without calling `memmove`; whenever `vec_remove`
returns, it returns 1 exactly when `i < len`; and on a vector that satisfies the
data-model invariants it always returns. -/
theorem remove_out_of_range (v : Vec) (i : Nat) :
    (v.len ≤ i → vec_remove v i = some { vec := v, ret := 0, moved := none }) ∧
    (∀ r, vec_remove v i = some r → (r.ret = 1 ↔ i < v.len)) ∧
    (Good v → ∃ r, vec_remove v i = some r) := by
  refine ⟨?_, ?_, ?_⟩
  · intro h
    unfold vec_remove
    rw [if_pos h]
  · intro r hr
    rcases vec_remove_some hr with ⟨h1, rfl⟩ | ⟨h1, -, rfl⟩ | ⟨h1, -, b, moved, -, -, rfl⟩
    · simp only [Nat.zero_ne_one, false_iff]
      omega
    · simp only [true_iff]
      exact h1
    · simp only [true_iff]
      exact h1
  · intro hg
    by_cases h : i < v.len
    · obtain ⟨r, hr, -⟩ := vec_remove_good hg h
      exact ⟨r, hr⟩
    · refine ⟨{ vec := v, ret := 0, moved := none }, ?_⟩
      unfold vec_remove
      rw [if_pos (by omega)]

/-- C7 (as amended). For every `element_size >= 2`, reserving
`SIZE_MAX / element_size + 1` elements (computed in `size_t`) on a fresh vector
returns 0 with `ENOMEM`, without calling the allocator, and leaves the vector
(`len` and `capacity` 0) as it was. -/
theorem reserve_overflow_fresh (e : Nat) (he : 2 ≤ e) (o : Option Fresh) :
    vec_reserve (vec_new e) (sz (SIZE_MAX / e + 1)) o =
      { vec := vec_new e, ret := 0, enomem := true, request := none } ∧
    (vec_reserve (vec_new e) (sz (SIZE_MAX / e + 1)) o).vec.capacity = 0 ∧
    (vec_reserve (vec_new e) (sz (SIZE_MAX / e + 1)) o).vec.len = 0 := by
  have h1 : SIZE_MAX / e ≤ SIZE_MAX / 2 := Nat.div_le_div_left he (by omega)
  have h2 : SIZE_MAX / 2 + 1 ≤ SIZE_MAX := by unfold SIZE_MAX; omega
  have h3 : sz (SIZE_MAX / e + 1) = SIZE_MAX / e + 1 := sz_of_le (by omega)
  have h4 : vec_reserve (vec_new e) (sz (SIZE_MAX / e + 1)) o =
      { vec := vec_new e, ret := 0, enomem := true, request := none } := by
    rw [h3]
    unfold vec_reserve
    rw [if_neg (by simp [vec_new]), if_pos ⟨by simp only [vec_new]; omega, by simp [vec_new]⟩]
  rw [h4]
  exact ⟨rfl, rfl, rfl⟩

/-! ## `vec_reserve` -/

theorem vec_reserve_noop {v : Vec} {n : Nat} (o : Option Fresh) (h : n ≤ v.capacity) :
    vec_reserve v n o = { vec := v, ret := 1, enomem := false, request := none } := by
  unfold vec_reserve
  rw [if_pos h]

theorem vec_reserve_overflow {v : Vec} {n : Nat} (o : Option Fresh) (h : v.capacity < n)
    (hg : v.elem_size ≠ 0 ∧ n > SIZE_MAX / v.elem_size) :
    vec_reserve v n o = { vec := v, ret := 0, enomem := true, request := none } := by
  unfold vec_reserve
  rw [if_neg (by omega), if_pos hg]

/-- A reserve that returned 1 either had nothing to do, or moved the block. -/
theorem vec_reserve_one {v : Vec} {n : Nat} {o : Option Fresh}
    (h : (vec_reserve v n o).ret = 1) :
    (n ≤ v.capacity ∧
      vec_reserve v n o = { vec := v, ret := 1, enomem := false, request := none }) ∨
    (v.capacity < n ∧ ¬(v.elem_size ≠ 0 ∧ n > SIZE_MAX / v.elem_size) ∧ ∃ f, o = some f ∧
      vec_reserve v n o =
        { vec := { v with
            data := some ⟨f.addr, resize (contents v.data) (sz (n * v.elem_size)) f.junk⟩,
            capacity := n },
          ret := 1, enomem := false, request := some (sz (n * v.elem_size)) }) := by
  by_cases h1 : n ≤ v.capacity
  · exact Or.inl ⟨h1, vec_reserve_noop o h1⟩
  · right
    by_cases h2 : v.elem_size ≠ 0 ∧ n > SIZE_MAX / v.elem_size
    · rw [vec_reserve_overflow o (by omega) h2] at h
      simp at h
    · refine ⟨by omega, h2, ?_⟩
      cases o with
      | none =>
        unfold vec_reserve at h
        rw [if_neg h1, if_neg h2] at h
        simp [realloc] at h
      | some f =>
        refine ⟨f, rfl, ?_⟩
        unfold vec_reserve
        rw [if_neg h1, if_neg h2]
        simp only [realloc]

theorem reserve_size_exact {v : Vec} {n : Nat}
    (h : ¬(v.elem_size ≠ 0 ∧ n > SIZE_MAX / v.elem_size)) :
    n * v.elem_size ≤ SIZE_MAX := by
  by_cases he : v.elem_size = 0
  · rw [he]; simp
  · have : n ≤ SIZE_MAX / v.elem_size := by
      by_contra hc
      exact h ⟨he, by omega⟩
    exact mul_le_of_le_div this

/-- C8. Reserve postcondition: with `new_capacity <= capacity`, `vec_reserve`
returns 1, calls nothing and changes nothing; with `new_capacity > capacity`, if
it returns 1 then `capacity` is exactly `new_capacity`, `len` and `elem_size`
are unchanged, and (on a vector that satisfies the data-model invariants) the
live elements are unchanged. A reserve that returns 1 always leaves
`capacity >= new_capacity` and never lowers `capacity`. -/
theorem reserve_postcondition (v : Vec) (n : Nat) (o : Option Fresh) :
    (n ≤ v.capacity →
      vec_reserve v n o = { vec := v, ret := 1, enomem := false, request := none }) ∧
    (v.capacity < n → (vec_reserve v n o).ret = 1 →
      (vec_reserve v n o).vec.capacity = n ∧ (vec_reserve v n o).vec.len = v.len ∧
      (vec_reserve v n o).vec.elem_size = v.elem_size ∧
      (Good v → elems (vec_reserve v n o).vec = elems v)) ∧
    ((vec_reserve v n o).ret = 1 →
      n ≤ (vec_reserve v n o).vec.capacity ∧ v.capacity ≤ (vec_reserve v n o).vec.capacity) := by
  refine ⟨vec_reserve_noop o, ?_, ?_⟩
  · intro hlt hret
    rcases vec_reserve_one hret with ⟨h1, -⟩ | ⟨-, h2, f, -, heq⟩
    · omega
    · rw [heq]
      refine ⟨rfl, rfl, rfl, ?_⟩
      intro hg
      rw [sz_of_le (reserve_size_exact h2)]
      have := hg.1.1
      exact elems_resize hg (by omega) _ _ _
  · intro hret
    rcases vec_reserve_one hret with ⟨h1, heq⟩ | ⟨h1, -, f, -, heq⟩
    · rw [heq]
      exact ⟨h1, Nat.le_refl _⟩
    · rw [heq]
      dsimp only
      omega

/-! ## Every call keeps the data-model invariants -/

theorem vec_push_elem_size {v : Vec} {elem : List Byte} {o : Option Fresh}
    {r : Outcome (Option Nat)} (h : vec_push v elem o = some r) :
    r.vec.elem_size = v.elem_size := by
  by_cases hr : r.ret = none
  · rw [(vec_push_null h hr).1]
  · rcases vec_push_success h hr with ⟨-, hc⟩ | ⟨-, nc, f, -, -, -, hc⟩
    · obtain ⟨b, bytes, -, -, rfl⟩ := push_copy_some hc
      rfl
    · obtain ⟨b, bytes, -, -, rfl⟩ := push_copy_some hc
      rfl

theorem vec_push_good {v : Vec} {elem : List Byte} {o : Option Fresh}
    {r : Outcome (Option Nat)} (hg : Good v) (hn : NoZeroWrap v)
    (h : vec_push v elem o = some r) : Good r.vec := by
  by_cases hr : r.ret = none
  · rw [(vec_push_null h hr).1]
    exact hg
  · obtain ⟨b, -, hgood, -⟩ := vec_push_spec hg hn h hr
    exact hgood

theorem vec_pop_good {v : Vec} (hg : Good v) : Good (vec_pop v) := by
  unfold vec_pop
  split
  · rename_i hpos
    obtain ⟨⟨h1, h2⟩, h3, h4, h5, h6⟩ := hg
    rw [subW_of_le (by omega)]
    exact ⟨⟨by dsimp only; omega, h2⟩, h3, h4, h5, h6⟩
  · exact hg

theorem vec_clear_good {v : Vec} (hg : Good v) : Good (vec_clear v) := by
  obtain ⟨⟨h1, h2⟩, h3, h4, h5, h6⟩ := hg
  exact ⟨⟨Nat.zero_le _, h2⟩, h3, h4, h5, h6⟩

theorem vec_destroy_some {v w : Vec} {l : Lifetime} (h : vec_destroy v l = some w) :
    w = { data := none, len := 0, capacity := 0, elem_size := 0 } := by
  unfold vec_destroy at h
  split at h
  · simp at h
  · simp only [Option.some.injEq] at h
    exact h.symm

theorem vec_destroy_good {v w : Vec} {l : Lifetime} (h : vec_destroy v l = some w) :
    Good w := by
  rw [vec_destroy_some h]
  unfold Good RepInv bufSize contents
  simp

theorem vec_reserve_good {v : Vec} (hg : Good v) {n : Nat} (hn : n ≤ SIZE_MAX)
    (o : Option Fresh) : Good (vec_reserve v n o).vec := by
  by_cases h1 : n ≤ v.capacity
  · rw [vec_reserve_noop o h1]
    exact hg
  · by_cases h2 : v.elem_size ≠ 0 ∧ n > SIZE_MAX / v.elem_size
    · rw [vec_reserve_overflow o (by omega) h2]
      exact hg
    · unfold vec_reserve
      rw [if_neg h1, if_neg h2]
      cases o with
      | none => exact hg
      | some f =>
        simp only [realloc]
        rw [sz_of_le (reserve_size_exact h2)]
        have := hg.1.1
        exact good_resize hg (by omega) (by omega) (reserve_size_exact h2) hn _ _

theorem vec_shrink_good {v : Vec} (hg : Good v) (o : Option Fresh) :
    Good (vec_shrink v o).vec := by
  unfold vec_shrink
  split
  · rename_i hz
    obtain ⟨⟨h1, h2⟩, h3, h4, h5, h6⟩ := hg
    refine ⟨⟨by dsimp only; omega, by simp⟩, ?_, ?_, ?_, h6⟩
    · simp [bufSize, contents]
    · simp
    · simp
  · rename_i hz
    have hle := hg.1.1
    have h2 : v.len * v.elem_size ≤ v.capacity * v.elem_size := Nat.mul_le_mul_right _ hle
    have hfit : v.len * v.elem_size ≤ SIZE_MAX := Nat.le_trans h2 hg.2.2.1
    cases o with
    | none => exact hg
    | some f =>
      simp only [realloc]
      rw [sz_of_le hfit]
      exact good_resize hg (Nat.le_refl _) hz hfit (Nat.le_trans hle hg.2.2.2.1) _ _

theorem vec_remove_keeps_good {v : Vec} (hg : Good v) {i : Nat} {r : Removed}
    (h : vec_remove v i = some r) : Good r.vec := by
  by_cases hi : i < v.len
  · obtain ⟨r2, hr2, -, -, -, -, -, hgood, -⟩ := vec_remove_good hg hi
    rw [hr2] at h
    simp only [Option.some.injEq] at h
    rw [← h]
    exact hgood
  · unfold vec_remove at h
    rw [if_pos (by omega)] at h
    simp only [Option.some.injEq] at h
    rw [← h]
    exact hg

theorem apply_elem_size {v w : Vec} {op : Op} (h : op.apply v = some w) :
    w.elem_size = v.elem_size ∨ w.elem_size = 0 := by
  cases op with
  | push elem o =>
    simp only [Op.apply, Option.map_eq_some'] at h
    obtain ⟨r, hr, rfl⟩ := h
    exact Or.inl (vec_push_elem_size hr)
  | pop =>
    simp only [Op.apply, Option.some.injEq] at h
    subst h
    unfold vec_pop
    split <;> exact Or.inl rfl
  | clear =>
    simp only [Op.apply, Option.some.injEq] at h
    subst h
    exact Or.inl rfl
  | remove i =>
    simp only [Op.apply, Option.map_eq_some'] at h
    obtain ⟨r, hr, rfl⟩ := h
    rcases vec_remove_some hr with ⟨-, rfl⟩ | ⟨-, -, rfl⟩ | ⟨-, -, b, moved, -, -, rfl⟩ <;>
      exact Or.inl rfl
  | reserve n o =>
    simp only [Op.apply, Option.some.injEq] at h
    subst h
    left
    unfold vec_reserve
    split
    · rfl
    · split
      · rfl
      · split <;> rfl
  | shrink o =>
    simp only [Op.apply, Option.some.injEq] at h
    subst h
    left
    unfold vec_shrink
    split
    · rfl
    · split <;> rfl
  | destroy =>
    simp only [Op.apply] at h
    rw [vec_destroy_some h]
    exact Or.inr rfl

theorem apply_good {v w : Vec} {op : Op} (hg : Good v) (ht : op.typed)
    (hn : ∀ elem o, op = Op.push elem o → NoZeroWrap v) (h : op.apply v = some w) :
    Good w := by
  cases op with
  | push elem o =>
    simp only [Op.apply, Option.map_eq_some'] at h
    obtain ⟨r, hr, rfl⟩ := h
    exact vec_push_good hg (hn elem o rfl) hr
  | pop =>
    simp only [Op.apply, Option.some.injEq] at h
    subst h
    exact vec_pop_good hg
  | clear =>
    simp only [Op.apply, Option.some.injEq] at h
    subst h
    exact vec_clear_good hg
  | remove i =>
    simp only [Op.apply, Option.map_eq_some'] at h
    obtain ⟨r, hr, rfl⟩ := h
    exact vec_remove_keeps_good hg hr
  | reserve n o =>
    simp only [Op.apply, Option.some.injEq] at h
    subst h
    exact vec_reserve_good hg ht o
  | shrink o =>
    simp only [Op.apply, Option.some.injEq] at h
    subst h
    exact vec_shrink_good hg o
  | destroy =>
    simp only [Op.apply] at h
    exact vec_destroy_good h

theorem run_elem_size {ops : List Op} {v w : Vec} (h : run v ops = some w) :
    w.elem_size = v.elem_size ∨ w.elem_size = 0 := by
  induction ops generalizing v with
  | nil =>
    simp only [run, Option.some.injEq] at h
    subst h
    exact Or.inl rfl
  | cons op ops ih =>
    simp only [run, Option.bind_eq_some] at h
    obtain ⟨u, hu, hw⟩ := h
    rcases ih hw with h1 | h1
    · rcases apply_elem_size hu with h2 | h2
      · exact Or.inl (h1.trans h2)
      · exact Or.inr (h1.trans h2)
    · exact Or.inr h1

/-- A run that ends with a non-zero element size kept the data-model invariants. -/
theorem run_good {ops : List Op} {v w : Vec} (hg : Good v) (ht : ∀ op ∈ ops, op.typed)
    (h : run v ops = some w) (hes : w.elem_size ≠ 0) : Good w := by
  induction ops generalizing v with
  | nil =>
    simp only [run, Option.some.injEq] at h
    subst h
    exact hg
  | cons op ops ih =>
    simp only [run, Option.bind_eq_some] at h
    obtain ⟨u, hu, hw⟩ := h
    have hu_es : u.elem_size ≠ 0 := by
      rcases run_elem_size hw with h1 | h1
      · rw [← h1]; exact hes
      · exact absurd h1 hes
    have hv_es : v.elem_size ≠ 0 := by
      rcases apply_elem_size hu with h1 | h1
      · rw [← h1]; exact hu_es
      · exact absurd h1 hu_es
    have hgu : Good u :=
      apply_good hg (ht op (List.mem_cons_self _ _)) (fun _ _ _ => Or.inl hv_es) hu
    exact ih hgu (fun op2 h2 => ht op2 (List.mem_cons_of_mem _ h2)) hw

theorem vec_new_good {e : Nat} (he : e ≤ SIZE_MAX) : Good (vec_new e) := by
  unfold vec_new Good RepInv bufSize contents
  simp [he]

theorem reachable_good {e : Nat} {v : Vec} (h : Reachable e v) (hes : v.elem_size ≠ 0) :
    Good v := by
  obtain ⟨he, ops, ht, hrun⟩ := h
  exact run_good (vec_new_good he) ht hrun hes

/-- C6. Reserve overflow: on every vector reachable from `vec_new` whose
`elem_size` is not 0, a `new_capacity` whose exact product with `elem_size`
exceeds `SIZE_MAX` makes `vec_reserve` return 0 with `ENOMEM`, whatever the
allocator would have answered and without calling it, and the vector (pointer,
bytes, `len`, `capacity`, `elem_size`) is returned as it was. -/
theorem reserve_overflow (e : Nat) (v : Vec) (n : Nat) (o : Option Fresh)
    (hr : Reachable e v) (hes : v.elem_size ≠ 0) (hov : SIZE_MAX < n * v.elem_size) :
    vec_reserve v n o = { vec := v, ret := 0, enomem := true, request := none } := by
  have hg := reachable_good hr hes
  have hfit := hg.2.2.1
  have hlt : v.capacity < n := by
    by_contra hc
    have : n * v.elem_size ≤ v.capacity * v.elem_size := Nat.mul_le_mul_right _ (by omega)
    omega
  have hdiv : SIZE_MAX / v.elem_size < n :=
    (Nat.div_lt_iff_lt_mul (Nat.pos_of_ne_zero hes)).2 hov
  exact vec_reserve_overflow o hlt ⟨hes, hdiv⟩

/-! ## Runs of pushes -/

theorem pushAll_cons {v w : Vec} {x : List Byte} {xs : List (List Byte)}
    {os : List (Option Fresh)} (h : pushAll v (x :: xs) os = some w) :
    ∃ r, vec_push v x os.head?.join = some r ∧ r.ret ≠ none ∧
      pushAll r.vec xs os.tail = some w := by
  unfold pushAll at h
  split at h
  · rename_i r hr
    split at h
    · simp at h
    · rename_i hret
      exact ⟨r, hr, hret, h⟩
  · simp at h

theorem doubling_step {v : Vec} {r : Outcome (Option Nat)} (hle : v.len ≤ v.capacity)
    (hlen : r.vec.len = v.len + 1)
    (hcap : r.vec.capacity = (if v.len < v.capacity then v.capacity
      else if v.capacity = 0 then 1 else 2 * v.capacity))
    (hd : Doubling v) : Doubling r.vec := by
  right
  rcases hd with ⟨h0, hc0⟩ | ⟨k, hk, hk1, hk2⟩
  · refine ⟨0, ?_, ?_, ?_⟩
    · rw [hcap, if_neg (by omega), if_pos hc0]
      rfl
    · rw [hlen, h0]
      exact Nat.le_refl _
    · rw [hlen, h0]
      decide
  · have hpos : 0 < 2 ^ k := Nat.two_pow_pos k
    by_cases hlt : v.len < v.capacity
    · refine ⟨k, ?_, ?_, ?_⟩
      · rw [hcap, if_pos hlt, hk]
      · rw [hlen]
        omega
      · rw [hlen]
        omega
    · have h2 : 2 ^ (k + 1) = 2 * 2 ^ k := by rw [Nat.pow_succ, Nat.mul_comm]
      refine ⟨k + 1, ?_, ?_, ?_⟩
      · rw [hcap, if_neg hlt, if_neg (by omega), hk, h2]
      · rw [hlen, h2]
        omega
      · rw [hlen, h2]
        omega

/-- What a run of successful pushes leaves, from a vector that satisfies the
invariants and has a non-zero element size. -/
theorem pushAll_spec {xs : List (List Byte)} {os : List (Option Fresh)} {v w : Vec}
    (hg : Good v) (hes : v.elem_size ≠ 0) (h : pushAll v xs os = some w) :
    Good w ∧ w.len = v.len + xs.length ∧ w.elem_size = v.elem_size ∧
      elems w = elems v ++ xs.map (fun x => x.take v.elem_size) ∧
      (Doubling v → Doubling w) := by
  induction xs generalizing v os with
  | nil =>
    simp only [pushAll, Option.some.injEq] at h
    subst h
    simp [hg]
  | cons x xs ih =>
    obtain ⟨r, hr, hret, hrest⟩ := pushAll_cons h
    obtain ⟨b, -, hgood, hlen, hsize, hcap, hel, -, -⟩ := vec_push_spec hg (Or.inl hes) hr hret
    obtain ⟨i1, i2, i3, i4, i5⟩ := ih hgood (by rw [hsize]; exact hes) hrest
    refine ⟨i1, ?_, by rw [i3, hsize], ?_, fun hd => i5 (doubling_step hg.1.1 hlen hcap hd)⟩
    · rw [i2, hlen, List.length_cons]
      omega
    · rw [i4, hel, hsize]
      simp

theorem map_take_of_length {xs : List (List Byte)} {e : Nat} (hx : ∀ x ∈ xs, x.length = e) :
    xs.map (fun x => x.take e) = xs := by
  induction xs with
  | nil => rfl
  | cons x xs ih =>
    rw [List.map_cons, ih (fun y hy => hx y (List.mem_cons_of_mem _ hy)),
      List.take_of_length_le (by rw [hx x (List.mem_cons_self _ _)])]

theorem elems_vec_new (e : Nat) : elems (vec_new e) = [] := rfl

/-- C2. Round trip: from `vec_new(e)` with `e >= 1`, pushing the `N` elements
of `xs` (each of `e` bytes) in order with every push returning a slot leaves
`len == N`; for each `i < N`, `vec_at(v, i)` is a non-`NULL` pointer and the `e`
bytes it addresses are `xs[i]`; `vec_at(v, N)` is `NULL`. -/
theorem push_round_trip (e : Nat) (xs : List (List Byte)) (os : List (Option Fresh))
    (v : Vec) (he : 1 ≤ e) (hmax : e ≤ SIZE_MAX) (hx : ∀ x ∈ xs, x.length = e)
    (h : pushAll (vec_new e) xs os = some v) :
    v.len = xs.length ∧
    (∀ i (hi : i < xs.length), ∃ p, vec_at v i = some p ∧ load v p e = some xs[i]) ∧
    vec_at v xs.length = none := by
  obtain ⟨hg, hlen, hsize, hel, -⟩ :=
    pushAll_spec (vec_new_good hmax) (show (vec_new e).elem_size ≠ 0 by simp [vec_new]; omega) h
  have hlen2 : v.len = xs.length := by rw [hlen]; simp [vec_new]
  have hsize2 : v.elem_size = e := hsize
  rw [elems_vec_new, List.nil_append, show (vec_new e).elem_size = e from rfl,
    map_take_of_length hx] at hel
  refine ⟨hlen2, ?_, vec_at_ge v (by omega)⟩
  intro i hi
  obtain ⟨b, -, hat, hload⟩ := vec_at_good hg (show i < v.len by omega)
  have h1 := elems_getElem? v (show i < v.len by omega)
  rw [hel, List.getElem?_eq_getElem hi] at h1
  simp only [Option.some.injEq] at h1
  rw [hsize2] at hat hload
  exact ⟨_, hat, by rw [hload, h1]⟩

/-- C9. Doubling growth: from `vec_new(e)` with `e >= 1`, after `n >= 1` pushes
that all returned a slot the capacity is the smallest power of two that is
`>= n`; and from any state such a run reaches, one more successful push leaves
the capacity alone when `len < capacity`, takes it from 0 to 1, and otherwise
makes it exactly twice what it was. -/
theorem doubling_growth (e : Nat) (xs : List (List Byte)) (os : List (Option Fresh))
    (v : Vec) (he : 1 ≤ e) (hmax : e ≤ SIZE_MAX) (h : pushAll (vec_new e) xs os = some v) :
    (1 ≤ xs.length → ∃ k, v.capacity = 2 ^ k ∧ xs.length ≤ 2 ^ k ∧
      ∀ j, xs.length ≤ 2 ^ j → 2 ^ k ≤ 2 ^ j) ∧
    (xs.length = 0 → v.capacity = 0) ∧
    (∀ x o r, vec_push v x o = some r → r.ret ≠ none →
      (v.len < v.capacity → r.vec.capacity = v.capacity) ∧
      (v.len = v.capacity → v.capacity = 0 → r.vec.capacity = 1) ∧
      (v.len = v.capacity → v.capacity ≠ 0 → r.vec.capacity = 2 * v.capacity)) := by
  have hes : (vec_new e).elem_size ≠ 0 := by simp [vec_new]; omega
  obtain ⟨hg, hlen, hsize, -, hd⟩ := pushAll_spec (vec_new_good hmax) hes h
  have hlen2 : v.len = xs.length := by rw [hlen]; simp [vec_new]
  have hdv : Doubling v := hd (Or.inl ⟨rfl, rfl⟩)
  refine ⟨?_, ?_, ?_⟩
  · intro hn
    rcases hdv with ⟨h0, -⟩ | ⟨k, hk, hk1, hk2⟩
    · omega
    · refine ⟨k, hk, by omega, ?_⟩
      intro j hj
      by_contra hc
      have hjk : j < k := by
        by_contra hjk
        exact hc (Nat.pow_le_pow_right (by decide) (by omega))
      have h1 : 2 ^ (j + 1) ≤ 2 ^ k := Nat.pow_le_pow_right (by decide) hjk
      have h2 : 2 ^ (j + 1) = 2 * 2 ^ j := by rw [Nat.pow_succ, Nat.mul_comm]
      omega
  · intro hn
    rcases hdv with ⟨-, h0⟩ | ⟨k, hk, hk1, hk2⟩
    · exact h0
    · omega
  · intro x o r hr hret
    obtain ⟨b, -, -, -, -, hcap, -⟩ :=
      vec_push_spec hg (Or.inl (by rw [hsize]; exact hes)) hr hret
    refine ⟨?_, ?_, ?_⟩
    · intro hlt
      rw [hcap, if_pos hlt]
    · intro heq h0
      rw [hcap, if_neg (by omega), if_pos h0]
    · intro heq h0
      rw [hcap, if_neg (by omega), if_neg h0]

/-! ## What holds away from the zero-size overflow branch -/

/-- Every state reached from `vec_new` that still has a non-zero element size
satisfies the representation invariant. -/
theorem reachable_rep_inv {e : Nat} {v : Vec} (h : Reachable e v) (hes : v.elem_size ≠ 0) :
    RepInv v :=
  (reachable_good h hes).1

/-- A push that returned a slot, on a vector that satisfies the invariants and
is not about to take the zero-size overflow branch: `len` grows by one, the old
slots keep their bytes, slot `old len` holds the element, the returned pointer
is that slot, which is also `vec_at(v, old len)` and `vec_back(v)`, and the
capacity is untouched when there was room. -/
theorem push_postcondition {v : Vec} {x : List Byte} {o : Option Fresh}
    {r : Outcome (Option Nat)} (hg : Good v) (hn : NoZeroWrap v)
    (h : vec_push v x o = some r) (hr : r.ret ≠ none) :
    r.vec.len = v.len + 1 ∧ (∀ i, i < v.len → slot r.vec i = slot v i) ∧
    slot r.vec v.len = x.take v.elem_size ∧ r.vec.elem_size = v.elem_size ∧
    (∃ b, r.vec.data = some b ∧ r.ret = some (b.addr + v.len * v.elem_size)) ∧
    vec_at r.vec v.len = r.ret ∧ vec_back r.vec = r.ret ∧
    (v.len < v.capacity → r.vec.capacity = v.capacity) := by
  obtain ⟨b, hb, hgood, hlen, hsize, hcap, hel, hret, -⟩ := vec_push_spec hg hn h hr
  have hat : vec_at r.vec v.len = r.ret := by
    obtain ⟨b2, hb2, hat2, -⟩ := vec_at_good hgood (show v.len < r.vec.len by omega)
    rw [hb] at hb2
    simp only [Option.some.injEq] at hb2
    rw [hat2, hret, hsize, hb2]
  refine ⟨hlen, ?_, ?_, hsize, ⟨b, hb, hret⟩, hat, ?_, ?_⟩
  · intro i hi
    have h1 := elems_getElem? r.vec (show i < r.vec.len by omega)
    rw [hel, List.getElem?_append_left (by rw [elems_length]; exact hi),
      elems_getElem? v hi] at h1
    exact (Option.some.inj h1).symm
  · have h1 := elems_getElem? r.vec (show v.len < r.vec.len by omega)
    rw [hel, List.getElem?_append_right (by rw [elems_length]), elems_length,
      Nat.sub_self] at h1
    exact (Option.some.inj h1).symm
  · rw [vec_back_good hgood (by omega), hlen, Nat.add_sub_cancel]
    exact hat
  · intro hlt
    rw [hcap, if_pos hlt]

/-! ## Zero-size elements -/

theorem run_append {ops1 ops2 : List Op} {v u : Vec} (h : run v ops1 = some u) :
    run v (ops1 ++ ops2) = run u ops2 := by
  induction ops1 generalizing v with
  | nil =>
    simp only [run, Option.some.injEq] at h
    subst h
    rfl
  | cons op ops ih =>
    simp only [run, Option.bind_eq_some] at h
    obtain ⟨w, hw, hu⟩ := h
    simp only [List.cons_append, run, hw, Option.some_bind]
    exact ih hu

theorem push_zero_size_room {l c : Nat} (o : Option Fresh) (hl : l < c) (hc : c ≤ SIZE_MAX) :
    vec_push (zero_size l c) [] o =
      some { vec := zero_size (l + 1) c, ret := some 1, enomem := false, request := none } := by
  rw [vec_push_room [] o (show (zero_size l c).len ≠ (zero_size l c).capacity by
    simp only [zero_size]; omega)]
  unfold push_copy
  simp only [zero_size, Nat.mul_zero, memcpy, sz, Nat.zero_mod]
  rw [Nat.mod_eq_of_lt (by omega)]
  simp

theorem run_push_zero_size (o : Option Fresh) {c : Nat} (hc : c ≤ SIZE_MAX) (k l : Nat)
    (h : l + k ≤ c) :
    run (zero_size l c) (List.replicate k (Op.push [] o)) = some (zero_size (l + k) c) := by
  induction k generalizing l with
  | zero => rfl
  | succ k ih =>
    rw [List.replicate_succ]
    simp only [run, Op.apply, push_zero_size_room o (show l < c by omega) hc, Option.map_some',
      Option.some_bind]
    rw [ih (l + 1) (by omega)]
    congr 2
    omega

theorem reserve_zero_size {c : Nat} (hc : 0 < c) :
    (vec_reserve (vec_new 0) c (some ⟨1, []⟩)).vec = zero_size 0 c := by
  unfold vec_reserve
  rw [if_neg (by simp only [vec_new]; omega), if_neg (by simp [vec_new])]
  simp [realloc, vec_new, zero_size, contents, resize, sz]

/-- After `vec_reserve(&v, c)` and `k <= c` pushes, a zero-size vector holds `k`
elements in a block with room for `c`. -/
theorem run_reserve_then_push {c k : Nat} (hc : 0 < c) (hmax : c ≤ SIZE_MAX) (hk : k ≤ c) :
    run (vec_new 0) (reserve_then_push c k) = some (zero_size k c) := by
  unfold reserve_then_push
  simp only [run, Op.apply, Option.some_bind, reserve_zero_size hc]
  have h1 := run_push_zero_size (some ⟨1, []⟩) hmax k 0 (by omega)
  rw [Nat.zero_add] at h1
  exact h1

/-- One push more than the reserved capacity is the push into the full vector. -/
theorem run_reserve_then_push_succ {c : Nat} (hc : 0 < c) (hmax : c ≤ SIZE_MAX) :
    run (vec_new 0) (reserve_then_push c (c + 1)) =
      (vec_push (zero_size c c) [] (some ⟨1, []⟩)).map Outcome.vec := by
  have h1 := run_reserve_then_push hc hmax (Nat.le_refl c)
  unfold reserve_then_push at h1 ⊢
  rw [List.replicate_succ', ← List.cons_append, run_append h1]
  simp only [run, Op.apply]
  cases vec_push (zero_size c c) [] (some ⟨1, []⟩) <;> rfl

theorem reserve_then_push_typed {c : Nat} (k : Nat) (hmax : c ≤ SIZE_MAX) :
    ∀ op ∈ reserve_then_push c k, op.typed := by
  intro op hop
  unfold reserve_then_push at hop
  rcases List.mem_cons.1 hop with h | h
  · subst h
    exact hmax
  · rw [List.eq_of_mem_replicate h]
    trivial

theorem zero_size_reachable {c k : Nat} (hc : 0 < c) (hmax : c ≤ SIZE_MAX) (hk : k ≤ c) :
    Reachable 0 (zero_size k c) :=
  ⟨Nat.zero_le _, reserve_then_push c k, reserve_then_push_typed k hmax,
    run_reserve_then_push hc hmax hk⟩

/-- C1 (the code at the failing input). On a zero-size vector, `vec_reserve` of
2^63 elements followed by 2^63 + 1 pushes, every allocator request answered
with a block, is a run from `vec_new(0)` that ends with `len = 2^63 + 1`,
`capacity = 0` and a non-`NULL` `data`: `len <= capacity` fails, and
`capacity == 0` holds with a non-`NULL` `data`. -/
theorem zero_size_overflow_breaks_invariant :
    run (vec_new 0) (reserve_then_push 9223372036854775808 9223372036854775809) =
      some (zero_size 9223372036854775809 0) ∧
    Reachable 0 (zero_size 9223372036854775809 0) ∧
    ¬ RepInv (zero_size 9223372036854775809 0) ∧
    ¬ (zero_size 9223372036854775809 0).len ≤ (zero_size 9223372036854775809 0).capacity ∧
    (zero_size 9223372036854775809 0).capacity = 0 ∧
    (zero_size 9223372036854775809 0).data ≠ none := by
  have hrun : run (vec_new 0) (reserve_then_push 9223372036854775808 9223372036854775809) =
      some (zero_size 9223372036854775809 0) := by
    rw [run_reserve_then_push_succ (c := 9223372036854775808) (by decide) (by decide)]
    decide
  exact ⟨hrun, ⟨by decide, _, reserve_then_push_typed _ (by decide), hrun⟩, by decide,
    by decide, by decide, by decide⟩

/-- C3 (the code at the failing input). The zero-size vector with
`len == capacity == SIZE_MAX` satisfies the invariants and is reachable from
`vec_new(0)`; `vec_push` on it, the allocator answering with a block, returns a
slot, yet leaves `len == 0` and `capacity == 0`, and both `vec_at(v, SIZE_MAX)`
and `vec_back(v)` are then `NULL`. -/
theorem zero_size_push_wraps_len :
    Good (zero_size SIZE_MAX SIZE_MAX) ∧ Reachable 0 (zero_size SIZE_MAX SIZE_MAX) ∧
    vec_push (zero_size SIZE_MAX SIZE_MAX) [] (some ⟨1, []⟩) =
      some { vec := { data := some ⟨1, []⟩, len := 0, capacity := 0, elem_size := 0 },
             ret := some 1, enomem := false, request := some 0 } ∧
    vec_at { data := some ⟨1, []⟩, len := 0, capacity := 0, elem_size := 0 } SIZE_MAX = none ∧
    vec_back { data := some ⟨1, []⟩, len := 0, capacity := 0, elem_size := 0 } = none := by
  refine ⟨by decide, zero_size_reachable (by decide) (Nat.le_refl _) (Nat.le_refl _), by decide,
    by decide, by decide⟩

/-! ## The theorems at concrete vectors -/

theorem five_ints_reachable : Reachable 4 five_ints :=
  ⟨by decide, five_pushes, by decide, by decide⟩

theorem push_round_trip_witness :
    pushAll (vec_new 2) three_pairs three_answers = some three_pairs_vec ∧
    three_pairs_vec.len = 3 ∧ vec_at three_pairs_vec 3 = none ∧
    ∃ p, vec_at three_pairs_vec 1 = some p ∧ load three_pairs_vec p 2 = some [3, 4] :=
  have h := push_round_trip 2 three_pairs three_answers three_pairs_vec (by decide) (by decide)
    (by decide) (by decide)
  ⟨by decide, h.1, h.2.2, h.2.1 1 (by decide)⟩

theorem remove_ordered_witness :
    Good five_ints ∧ ∃ r, vec_remove five_ints 2 = some r ∧ r.ret = 1 ∧ r.vec.len = 4 ∧
      elems r.vec = [[1, 0, 0, 0], [2, 0, 0, 0], [4, 0, 0, 0], [5, 0, 0, 0]] :=
  have h := remove_ordered five_ints
    [[1, 0, 0, 0], [2, 0, 0, 0], [3, 0, 0, 0], [4, 0, 0, 0], [5, 0, 0, 0]] 2 (by decide)
    (by decide) (by decide)
  ⟨by decide, h.elim fun r hr => ⟨r, hr.1, hr.2.1, hr.2.2.1, hr.2.2.2.2.2.1⟩⟩

theorem remove_out_of_range_witness :
    vec_remove five_ints 5 = some { vec := five_ints, ret := 0, moved := none } :=
  (remove_out_of_range five_ints 5).1 (by decide)

theorem reserve_overflow_witness :
    Reachable 4 five_ints ∧ SIZE_MAX < 4611686018427387904 * five_ints.elem_size ∧
    vec_reserve five_ints 4611686018427387904 (some ⟨8192, []⟩) =
      { vec := five_ints, ret := 0, enomem := true, request := none } :=
  ⟨five_ints_reachable, by decide,
    reserve_overflow 4 five_ints 4611686018427387904 (some ⟨8192, []⟩) five_ints_reachable
      (by decide) (by decide)⟩

/-- C7 (counterexample). With `element_size` 1 the request `SIZE_MAX / 1 + 1`
wraps to 0 in `size_t`, and `vec_reserve(&v, 0)` on a fresh vector returns 1
without setting `errno`. -/
theorem reserve_overflow_fresh_counterexample :
    sz (SIZE_MAX / 1 + 1) = 0 ∧
    (vec_reserve (vec_new 1) (sz (SIZE_MAX / 1 + 1)) none).ret = 1 ∧
    (vec_reserve (vec_new 1) (sz (SIZE_MAX / 1 + 1)) none).ret ≠ 0 ∧
    (vec_reserve (vec_new 1) (sz (SIZE_MAX / 1 + 1)) none).enomem = false := by
  decide

theorem reserve_overflow_fresh_witness :
    vec_reserve (vec_new 8) (sz (SIZE_MAX / 8 + 1)) none =
      { vec := vec_new 8, ret := 0, enomem := true, request := none } :=
  (reserve_overflow_fresh 8 (by decide) none).1

theorem reserve_postcondition_witness :
    (vec_reserve five_ints 100 (some ⟨8192, []⟩)).vec.capacity = 100 ∧
    (vec_reserve five_ints 100 (some ⟨8192, []⟩)).vec.len = 5 ∧
    elems (vec_reserve five_ints 100 (some ⟨8192, []⟩)).vec = elems five_ints :=
  have h := (reserve_postcondition five_ints 100 (some ⟨8192, []⟩)).2.1 (by decide) (by decide)
  ⟨h.1, h.2.1, h.2.2.2 (by decide)⟩

theorem doubling_growth_witness :
    pushAll (vec_new 2) three_pairs three_answers = some three_pairs_vec ∧
    ∃ k, three_pairs_vec.capacity = 2 ^ k ∧ 3 ≤ 2 ^ k ∧ ∀ j, 3 ≤ 2 ^ j → 2 ^ k ≤ 2 ^ j :=
  ⟨by decide,
    (doubling_growth 2 three_pairs three_answers three_pairs_vec (by decide) (by decide)
      (by decide)).1 (by decide)⟩

theorem failure_atomicity_witness :
    (vec_reserve five_ints 100 none).ret = 0 ∧ (vec_reserve five_ints 100 none).vec = five_ints :=
  ⟨by decide, (failure_atomicity five_ints).2.1 100 none (by decide)⟩

/-! ## `vec_shrink`, `vec_destroy`, `vec_at`, `vec_back` -/

theorem vec_shrink_empty {v : Vec} (o : Option Fresh) (h : v.len = 0) :
    vec_shrink v o = { vec := { v with data := none, capacity := 0 }, request := none } := by
  unfold vec_shrink
  rw [if_pos h]

theorem vec_shrink_some {v : Vec} (f : Fresh) (h : v.len ≠ 0) :
    vec_shrink v (some f) =
      { vec := { v with
          data := some ⟨f.addr, resize (contents v.data) (sz (v.len * v.elem_size)) f.junk⟩,
          capacity := v.len },
        request := some (sz (v.len * v.elem_size)) } := by
  unfold vec_shrink
  rw [if_neg h]
  simp only [realloc]

theorem vec_shrink_none {v : Vec} (h : v.len ≠ 0) :
    vec_shrink v none = { vec := v, request := some (sz (v.len * v.elem_size)) } := by
  unfold vec_shrink
  rw [if_neg h]
  simp only [realloc]

theorem live_size_exact {v : Vec} (hg : Good v) : v.len * v.elem_size ≤ SIZE_MAX :=
  Nat.le_trans (Nat.mul_le_mul_right _ hg.1.1) hg.2.2.1

theorem vec_destroy_defined {v : Vec} {l : Lifetime}
    (h : v.data = none ∨ l = Lifetime.live) :
    vec_destroy v l = some { data := none, len := 0, capacity := 0, elem_size := 0 } := by
  unfold vec_destroy free
  rcases h with h | h
  · simp [h]
  · subst h
    cases v.data <;> rfl

/-- On a vector whose `data` is `NULL` or points at a block the allocator still
holds, `vec_destroy` leaves `data == NULL`, `len == 0`, `capacity == 0`,
`elem_size == 0`, and a second `vec_destroy` is defined whatever the allocator
holds and leaves exactly the same state. -/
theorem destroy_idempotent_owned (v : Vec) (l : Lifetime)
    (h : v.data = none ∨ l = Lifetime.live) :
    vec_destroy v l = some { data := none, len := 0, capacity := 0, elem_size := 0 } ∧
    ∀ l2, vec_destroy { data := none, len := 0, capacity := 0, elem_size := 0 } l2 =
      some { data := none, len := 0, capacity := 0, elem_size := 0 } :=
  ⟨vec_destroy_defined h, fun _ => vec_destroy_defined (Or.inl rfl)⟩

/-- C13 (the code at the failing input). After `vec_new(0)` and one push the
vector holds a block; the next push finds `len == capacity == 1`, asks `realloc`
for 0 bytes and, answered `NULL`, returns `NULL` with the vector unchanged: `data`
still points at the old block, which an allocator that releases on such an
answer no longer holds. `vec_destroy` then calls `free` on a released block: it
is undefined and yields no state. -/
theorem destroy_released_block :
    vec_push (vec_new 0) [] (some ⟨1, []⟩) =
      some { vec := zero_size 1 1, ret := some 1, enomem := false, request := some 0 } ∧
    vec_push (zero_size 1 1) [] none =
      some { vec := zero_size 1 1, ret := none, enomem := true, request := some 0 } ∧
    push_lifetime true Lifetime.live
      { vec := zero_size 1 1, ret := none, enomem := true, request := some 0 } =
        Lifetime.released ∧
    (zero_size 1 1).data ≠ none ∧
    vec_destroy (zero_size 1 1) Lifetime.released = none ∧
    vec_destroy (zero_size 1 1) Lifetime.live =
      some { data := none, len := 0, capacity := 0, elem_size := 0 } := by
  exact ⟨by decide, by decide, by decide, by decide, by decide, by decide⟩

theorem vec_at_some {v : Vec} {b : Block} (hb : v.data = some b) {i : Nat} (hi : i < v.len) :
    vec_at v i = some (b.addr + sz (i * v.elem_size)) := by
  unfold vec_at
  simp only [hb]
  rw [if_neg (by omega)]

theorem vec_at_null {v : Vec} (h : v.data = none) (i : Nat) : vec_at v i = none := by
  unfold vec_at
  simp only [h]

/-- C14. Bounds-checked access: `vec_at(v, i)` is non-`NULL` exactly when
`i < len` and `data` is non-`NULL`, and is then `data + i * elem_size` (the
`size_t` product, which on a vector that satisfies the data-model invariants is
exact and leaves room for one element inside the block); `vec_back(v)` is `NULL`
when `len == 0` and `vec_at(v, len - 1)` otherwise. Both are functions of the
vector only: the source assigns to no field and no byte. -/
theorem bounds_checked_access (v : Vec) (i : Nat) :
    (vec_at v i ≠ none ↔ i < v.len ∧ v.data ≠ none) ∧
    (∀ b, v.data = some b → i < v.len → vec_at v i = some (b.addr + sz (i * v.elem_size))) ∧
    (Good v → i < v.len →
      sz (i * v.elem_size) = i * v.elem_size ∧ i * v.elem_size + v.elem_size ≤ bufSize v) ∧
    (v.len = 0 → vec_back v = none) ∧
    (v.len ≠ 0 → vec_back v = vec_at v (v.len - 1)) := by
  refine ⟨?_, fun b hb hi => vec_at_some hb hi, ?_, ?_, ?_⟩
  · cases hd : v.data with
    | none => simp [vec_at_null hd]
    | some b =>
      by_cases hi : i < v.len
      · simp [vec_at_some hd hi, hi]
      · simp [vec_at_ge v (show v.len ≤ i by omega), hi]
  · intro hg hi
    have h1 := slot_mul_le v.elem_size hi
    have h2 := live_size_exact hg
    have h3 : v.len * v.elem_size ≤ v.capacity * v.elem_size :=
      Nat.mul_le_mul_right _ hg.1.1
    have h4 := hg.2.1
    exact ⟨sz_of_le (by omega), by omega⟩
  · intro h0
    unfold vec_back
    split
    · rfl
    · rw [if_pos h0]
  · intro h0
    cases hd : v.data with
    | none =>
      rw [vec_at_null hd]
      unfold vec_back
      simp only [hd]
    | some b =>
      rw [vec_at_some hd (show v.len - 1 < v.len by omega)]
      unfold vec_back
      simp only [hd]
      rw [if_neg h0, subW_of_le (by omega)]

/-! ## The overflow guards of `vec_push` -/

theorem first_guard_iff {v : Vec} (hes : v.elem_size ≠ 0) :
    v.capacity > SIZE_MAX / 2 / v.elem_size ↔ SIZE_MAX < 2 * v.capacity * v.elem_size := by
  have hpos : 0 < v.elem_size := Nat.pos_of_ne_zero hes
  have hodd : SIZE_MAX = 2 * (SIZE_MAX / 2) + 1 := by unfold SIZE_MAX; omega
  have hassoc : 2 * v.capacity * v.elem_size = 2 * (v.capacity * v.elem_size) := Nat.mul_assoc _ _ _
  constructor
  · intro h
    have h1 : SIZE_MAX / 2 < v.capacity * v.elem_size := (Nat.div_lt_iff_lt_mul hpos).1 h
    omega
  · intro h
    have h1 : SIZE_MAX / 2 < v.capacity * v.elem_size := by omega
    exact (Nat.div_lt_iff_lt_mul hpos).2 h1

/-- The capacity `vec_push` asks for when the block is full and the element
size is not 0: the first guard fires exactly when the exact byte count of the
doubled (or first) capacity exceeds `SIZE_MAX`, and otherwise the second guard
does not fire. -/
theorem push_new_cap_exact {v : Vec} (hes : v.elem_size ≠ 0) (hmax : v.elem_size ≤ SIZE_MAX) :
    (SIZE_MAX < (if v.capacity = 0 then 1 else 2 * v.capacity) * v.elem_size →
      push_new_cap v = none) ∧
    ((if v.capacity = 0 then 1 else 2 * v.capacity) * v.elem_size ≤ SIZE_MAX →
      push_new_cap v = some (if v.capacity = 0 then 1 else 2 * v.capacity) ∧
      ¬(v.elem_size ≠ 0 ∧
        (if v.capacity = 0 then 1 else 2 * v.capacity) > SIZE_MAX / v.elem_size)) := by
  have hpos : 0 < v.elem_size := Nat.pos_of_ne_zero hes
  by_cases hc : v.capacity = 0
  · simp only [hc, if_true, Nat.one_mul]
    refine ⟨fun h => absurd hmax (by omega), fun _ => ⟨?_, ?_⟩⟩
    · unfold push_new_cap
      rw [if_pos hc]
    · intro hg
      have : 1 ≤ SIZE_MAX / v.elem_size := (Nat.le_div_iff_mul_le hpos).2 (by omega)
      omega
  · simp only [hc, if_false]
    constructor
    · intro h
      unfold push_new_cap
      rw [if_neg hc, if_pos ⟨hes, (first_guard_iff hes).2 h⟩]
    · intro h
      have hg1 : ¬(v.elem_size ≠ 0 ∧ v.capacity > SIZE_MAX / 2 / v.elem_size) := by
        intro hg
        have := (first_guard_iff hes).1 hg.2
        omega
      have h1 : v.capacity ≤ v.capacity * v.elem_size := Nat.le_mul_of_pos_right _ hpos
      have hassoc : 2 * v.capacity * v.elem_size = 2 * (v.capacity * v.elem_size) :=
        Nat.mul_assoc _ _ _
      have hdbl : v.capacity * 2 ≤ SIZE_MAX := by omega
      refine ⟨?_, ?_⟩
      · unfold push_new_cap
        rw [if_neg hc, if_neg hg1, if_neg (by intro hz; exact hes hz.1), sz_of_le hdbl,
          Nat.mul_comm]
      · intro hg
        have : 2 * v.capacity ≤ SIZE_MAX / v.elem_size := (Nat.le_div_iff_mul_le hpos).2 h
        omega

/-- C20. The second overflow check of `vec_push` (vec.c:52) is never true: for
every vector whose `elem_size` is a `size_t` value, whenever a `new_cap` has been
chosen it is 1 or twice a capacity that passed the first guard, and
`new_cap <= SIZE_MAX / elem_size` when `elem_size != 0`; so `vec_push` returns
`NULL` without calling the allocator exactly when the block is full and the
first guard (vec.c:37) fires. -/
theorem second_guard_dead (v : Vec) (hmax : v.elem_size ≤ SIZE_MAX) :
    (∀ nc, push_new_cap v = some nc →
      ¬(v.elem_size ≠ 0 ∧ nc > SIZE_MAX / v.elem_size)) ∧
    (∀ nc, push_new_cap v = some nc → v.elem_size ≠ 0 →
      (nc = 1 ∨ (nc = 2 * v.capacity ∧ v.capacity ≤ SIZE_MAX / 2 / v.elem_size)) ∧
      nc ≤ SIZE_MAX / v.elem_size) ∧
    (∀ elem o r, vec_push v elem o = some r →
      (r.ret = none ∧ r.request = none ↔
        v.len = v.capacity ∧ v.capacity ≠ 0 ∧ v.elem_size ≠ 0 ∧
          v.capacity > SIZE_MAX / 2 / v.elem_size)) := by
  have key : ∀ nc, push_new_cap v = some nc → v.elem_size ≠ 0 →
      (nc = 1 ∨ (nc = 2 * v.capacity ∧ v.capacity ≤ SIZE_MAX / 2 / v.elem_size)) ∧
      nc ≤ SIZE_MAX / v.elem_size := by
    intro nc hnc hes
    have hex := push_new_cap_exact hes hmax
    by_cases hfit : (if v.capacity = 0 then 1 else 2 * v.capacity) * v.elem_size ≤ SIZE_MAX
    · obtain ⟨h1, h2⟩ := hex.2 hfit
      rw [h1] at hnc
      simp only [Option.some.injEq] at hnc
      subst hnc
      have hle : (if v.capacity = 0 then 1 else 2 * v.capacity) ≤ SIZE_MAX / v.elem_size := by
        by_contra hc
        exact h2 ⟨hes, by omega⟩
      refine ⟨?_, hle⟩
      by_cases hc : v.capacity = 0
      · left
        rw [if_pos hc]
      · right
        rw [if_neg hc] at hfit ⊢
        refine ⟨rfl, ?_⟩
        by_contra hgt
        have := (first_guard_iff hes).1 (by omega)
        omega
    · rw [hex.1 (by omega)] at hnc
      simp at hnc
  have dead : ∀ nc, push_new_cap v = some nc →
      ¬(v.elem_size ≠ 0 ∧ nc > SIZE_MAX / v.elem_size) := by
    intro nc hnc hg
    have := (key nc hnc hg.1).2
    omega
  refine ⟨dead, key, ?_⟩
  intro elem o r h
  constructor
  · rintro ⟨hret, hreq⟩
    by_cases hlc : v.len = v.capacity
    · refine ⟨hlc, ?_⟩
      unfold vec_push at h
      rw [if_pos hlc] at h
      cases hnc : push_new_cap v with
      | none =>
        unfold push_new_cap at hnc
        by_cases hc : v.capacity = 0
        · rw [if_pos hc] at hnc
          simp at hnc
        · rw [if_neg hc] at hnc
          by_cases hg : v.elem_size ≠ 0 ∧ v.capacity > SIZE_MAX / 2 / v.elem_size
          · exact ⟨hc, hg.1, hg.2⟩
          · rw [if_neg hg] at hnc
            split at hnc <;> simp at hnc
      | some nc =>
        rw [hnc] at h
        simp only [if_neg (dead nc hnc)] at h
        cases o with
        | none =>
          simp only [realloc, Option.some.injEq] at h
          subst h
          simp at hreq
        | some f =>
          simp only [realloc] at h
          exact absurd hret (push_copy_ret h)
    · rw [vec_push_room elem o hlc] at h
      exact absurd hret (push_copy_ret h)
  · rintro ⟨hlc, hc, hes, hg⟩
    have hnc : push_new_cap v = none := by
      unfold push_new_cap
      rw [if_neg hc, if_pos ⟨hes, hg⟩]
    unfold vec_push at h
    rw [if_pos hlc, hnc] at h
    simp only [Option.some.injEq] at h
    subst h
    exact ⟨rfl, rfl⟩

/-- C17. The overflow guard of `vec_push` is exact: on a full vector
(`len == capacity`) with a non-zero `size_t` element size, with `new_cap` 1 for
capacity 0 and `2 * capacity` otherwise (exact integers), `vec_push` returns
`NULL` with `ENOMEM` and without calling the allocator exactly when
`new_cap * elem_size > SIZE_MAX`; otherwise it asks the allocator for exactly
`new_cap * elem_size` bytes, fails when the allocator does, and when the
allocator answers with a block it returns a slot, with capacity `new_cap` and
one more element. -/
theorem push_overflow_guard_exact (v : Vec) (elem : List Byte) (hes : v.elem_size ≠ 0)
    (hmax : v.elem_size ≤ SIZE_MAX) (hfull : v.len = v.capacity)
    (hel : v.elem_size ≤ elem.length) :
    (SIZE_MAX < (if v.capacity = 0 then 1 else 2 * v.capacity) * v.elem_size →
      ∀ o, vec_push v elem o = some { vec := v, ret := none, enomem := true, request := none }) ∧
    ((if v.capacity = 0 then 1 else 2 * v.capacity) * v.elem_size ≤ SIZE_MAX →
      vec_push v elem none =
        some { vec := v, ret := none, enomem := true,
               request := some ((if v.capacity = 0 then 1 else 2 * v.capacity) * v.elem_size) } ∧
      ∀ f, ∃ r, vec_push v elem (some f) = some r ∧ r.ret ≠ none ∧ r.enomem = false ∧
        r.request = some ((if v.capacity = 0 then 1 else 2 * v.capacity) * v.elem_size) ∧
        r.vec.capacity = (if v.capacity = 0 then 1 else 2 * v.capacity) ∧
        r.vec.len = v.len + 1) ∧
    (∀ o r, vec_push v elem o = some r →
      (r.ret = none ∧ r.request = none ↔
        SIZE_MAX < (if v.capacity = 0 then 1 else 2 * v.capacity) * v.elem_size)) := by
  obtain ⟨hfire, hpass⟩ := push_new_cap_exact hes hmax
  have hlt : v.capacity < (if v.capacity = 0 then 1 else 2 * v.capacity) := by
    split <;> omega
  obtain ⟨N, hN⟩ : ∃ N, N = (if v.capacity = 0 then 1 else 2 * v.capacity) := ⟨_, rfl⟩
  rw [← hN] at hfire hpass hlt ⊢
  have hA : SIZE_MAX < N * v.elem_size →
      ∀ o, vec_push v elem o = some { vec := v, ret := none, enomem := true, request := none } := by
    intro h o
    unfold vec_push
    rw [if_pos hfull, hfire h]
  have hB : N * v.elem_size ≤ SIZE_MAX →
      vec_push v elem none =
        some { vec := v, ret := none, enomem := true, request := some (N * v.elem_size) } ∧
      ∀ f, ∃ r, vec_push v elem (some f) = some r ∧ r.ret ≠ none ∧ r.enomem = false ∧
        r.request = some (N * v.elem_size) ∧ r.vec.capacity = N ∧ r.vec.len = v.len + 1 := by
    intro h
    obtain ⟨hnc, hg2⟩ := hpass h
    have hNle : N ≤ SIZE_MAX :=
      Nat.le_trans (Nat.le_mul_of_pos_right _ (Nat.pos_of_ne_zero hes)) h
    constructor
    · unfold vec_push
      rw [if_pos hfull, hnc]
      simp only [realloc, if_neg hg2, sz_of_le h]
    · intro f
      rw [vec_push_grow elem f hfull hnc hg2, sz_of_le h]
      obtain ⟨bytes, -, hpc⟩ := push_copy_room
        (w := { v with
          data := some ⟨f.addr, resize (contents v.data) (N * v.elem_size) f.junk⟩,
          capacity := N }) (q := some (N * v.elem_size)) rfl (resize_length _ _ _) h hNle
          (by dsimp only; omega) hel
      exact ⟨_, hpc, by simp, rfl, rfl, rfl, rfl⟩
  refine ⟨hA, hB, ?_⟩
  intro o r h
  by_cases hov : SIZE_MAX < N * v.elem_size
  · rw [hA hov o] at h
    simp only [Option.some.injEq] at h
    subst h
    simp [hov]
  · obtain ⟨hnone, hsome⟩ := hB (by omega)
    cases o with
    | none =>
      rw [hnone] at h
      simp only [Option.some.injEq] at h
      subst h
      simp [hov]
    | some f =>
      obtain ⟨r2, hr2, hret, -⟩ := hsome f
      rw [hr2] at h
      simp only [Option.some.injEq] at h
      subst h
      simp [hov, hret]

/-! ## Growth of a zero-size vector -/

theorem resize_zero (old junk : List Byte) : resize old 0 junk = [] := by
  apply List.eq_nil_of_length_eq_zero
  exact resize_length old junk 0

theorem push_new_cap_zero_size {v : Vec} (hes : v.elem_size = 0) (hpos : 1 ≤ v.capacity) :
    push_new_cap v = some (if v.capacity ≤ SIZE_MAX / 2 then 2 * v.capacity else 0) := by
  unfold push_new_cap
  rw [if_neg (by omega), if_neg (by intro h; exact h.1 hes)]
  by_cases hc : v.capacity ≤ SIZE_MAX / 2
  · rw [if_neg (by omega), if_pos hc, sz_of_le (by omega), Nat.mul_comm]
  · rw [if_pos ⟨hes, by omega⟩, if_neg hc]

/-- What `vec_push` does on a full zero-size vector, for each allocator answer. -/
theorem vec_push_zero_size_full {v : Vec} (elem : List Byte) (hes : v.elem_size = 0)
    (hfull : v.len = v.capacity) (hpos : 1 ≤ v.capacity) :
    vec_push v elem none =
      some { vec := v, ret := none, enomem := true, request := some 0 } ∧
    ∀ f, vec_push v elem (some f) =
      some { vec := { data := some ⟨f.addr, []⟩, len := sz (v.len + 1),
                      capacity := (if v.capacity ≤ SIZE_MAX / 2 then 2 * v.capacity else 0),
                      elem_size := v.elem_size },
             ret := some f.addr, enomem := false, request := some 0 } := by
  have hnc := push_new_cap_zero_size hes hpos
  have hg2 : ∀ nc, ¬(v.elem_size ≠ 0 ∧ nc > SIZE_MAX / v.elem_size) := fun nc h => h.1 hes
  have hz : ∀ n, sz (n * v.elem_size) = 0 := by
    intro n
    rw [hes, Nat.mul_zero]
    rfl
  constructor
  · unfold vec_push
    rw [if_pos hfull, hnc]
    simp only [realloc, if_neg (hg2 _), hz]
  · intro f
    rw [vec_push_grow elem f hfull hnc (hg2 _), hz, resize_zero]
    have hz0 : sz 0 = 0 := rfl
    unfold push_copy
    simp [hz0, hes, memcpy]

/-- C19 (as amended). On a full zero-size vector (`elem_size == 0`,
`len == capacity`) with `1 <= capacity <= SIZE_MAX / 2`, `vec_push` never returns
without calling the allocator (no overflow return): it asks for 0 bytes, fails
with the vector unchanged when the allocator answers `NULL`, and when the
allocator answers with a block the push returns a slot and the new capacity is
exactly `2 * capacity`. -/
theorem zero_size_growth (v : Vec) (elem : List Byte) (hes : v.elem_size = 0)
    (hfull : v.len = v.capacity) (hpos : 1 ≤ v.capacity) (hcap : v.capacity ≤ SIZE_MAX / 2) :
    (∀ o r, vec_push v elem o = some r → r.request = some 0) ∧
    (∀ r, vec_push v elem none = some r → r.ret = none ∧ r.enomem = true ∧ r.vec = v) ∧
    (∀ f, ∃ r, vec_push v elem (some f) = some r ∧ r.ret ≠ none ∧ r.enomem = false ∧
      r.vec.capacity = 2 * v.capacity ∧ r.vec.len = v.len + 1) := by
  obtain ⟨hnone, hsome⟩ := vec_push_zero_size_full elem hes hfull hpos
  refine ⟨?_, ?_, ?_⟩
  · intro o r h
    cases o with
    | none =>
      rw [hnone] at h
      simp only [Option.some.injEq] at h
      rw [← h]
    | some f =>
      rw [hsome f] at h
      simp only [Option.some.injEq] at h
      rw [← h]
  · intro r h
    rw [hnone] at h
    simp only [Option.some.injEq] at h
    rw [← h]
    exact ⟨rfl, rfl, rfl⟩
  · intro f
    refine ⟨_, hsome f, by simp, rfl, ?_, ?_⟩
    · dsimp only
      rw [if_pos hcap]
    · dsimp only
      exact sz_of_le (by omega)

/-- C19 (counterexample). The full zero-size vector with capacity 2^63 + 1:
`vec_push`, the allocator answering with a block, returns a slot and leaves
capacity 0, while `2 * capacity` reduced modulo `SIZE_MAX + 1` is 2. -/
theorem zero_size_growth_counterexample :
    Reachable 0 (zero_size 9223372036854775809 9223372036854775809) ∧
    (vec_push (zero_size 9223372036854775809 9223372036854775809) [] (some ⟨1, []⟩)).map
        (fun r => (r.ret, r.vec.capacity)) = some (some 1, 0) ∧
    (2 * 9223372036854775809) % (SIZE_MAX + 1) = 2 := by
  exact ⟨zero_size_reachable (by decide) (by decide) (Nat.le_refl _), by decide, by decide⟩

theorem zero_size_growth_witness :
    (zero_size 4 4).elem_size = 0 ∧
    (zero_size 4 4).capacity ≤ SIZE_MAX / 2 ∧
    ∃ r, vec_push (zero_size 4 4) [] (some ⟨1, []⟩) = some r ∧ r.ret ≠ none ∧
      r.enomem = false ∧ r.vec.capacity = 8 ∧ r.vec.len = 5 :=
  ⟨rfl, by decide,
    (zero_size_growth (zero_size 4 4) [] rfl rfl (by decide) (by decide)).2.2 ⟨1, []⟩⟩

/-! ## The invariant of every reachable state -/

theorem good_zero_ok {v : Vec} (hg : Good v) (hes : v.elem_size = 0) : ZeroOK v := by
  obtain ⟨⟨h1, h2⟩, h3, h4, h5, h6⟩ := hg
  refine ⟨by rw [h3, hes, Nat.mul_zero], ?_, by omega, h5⟩
  intro hd
  have := h2.2 hd
  omega

theorem push_new_cap_le {v : Vec} {nc : Nat} (h : push_new_cap v = some nc) :
    nc ≤ SIZE_MAX := by
  unfold push_new_cap at h
  split at h
  · simp only [Option.some.injEq] at h
    subst h
    unfold SIZE_MAX
    omega
  · split at h
    · simp at h
    · split at h
      · simp only [Option.some.injEq] at h
        subst h
        exact Nat.zero_le _
      · simp only [Option.some.injEq] at h
        subst h
        exact sz_le _

theorem zero_ok_push {v : Vec} {elem : List Byte} {o : Option Fresh}
    {r : Outcome (Option Nat)} (hz : ZeroOK v) (hes : v.elem_size = 0)
    (h : vec_push v elem o = some r) : ZeroOK r.vec := by
  by_cases hr : r.ret = none
  · rw [(vec_push_null h hr).1]
    exact hz
  · obtain ⟨h1, h2, h3, h4⟩ := hz
    rcases vec_push_success h hr with ⟨-, hc⟩ | ⟨-, nc, f, hnc, -, -, hc⟩
    · obtain ⟨b, bytes, hb, hm, rfl⟩ := push_copy_some hc
      have hl := memcpy_length hm
      simp only [bufSize, contents, hb] at h1
      refine ⟨?_, by simp, sz_le _, h4⟩
      simp only [bufSize, contents]
      omega
    · obtain ⟨b, bytes, hb, hm, rfl⟩ := push_copy_some hc
      have hl := memcpy_length hm
      simp only [Option.some.injEq] at hb
      subst hb
      rw [resize_length, hes, Nat.mul_zero] at hl
      refine ⟨?_, by simp, sz_le _, push_new_cap_le hnc⟩
      simp only [bufSize, contents]
      rw [hl]
      rfl

theorem zero_ok_pop {v : Vec} (hz : ZeroOK v) : ZeroOK (vec_pop v) := by
  unfold vec_pop
  split
  · rename_i hpos
    obtain ⟨h1, h2, h3, h4⟩ := hz
    rw [subW_of_le (by omega)]
    refine ⟨h1, ?_, by dsimp only; omega, h4⟩
    intro hd
    have := (h2 hd).1
    omega
  · exact hz

theorem zero_ok_clear {v : Vec} (hz : ZeroOK v) : ZeroOK (vec_clear v) := by
  obtain ⟨h1, h2, h3, h4⟩ := hz
  exact ⟨h1, fun hd => ⟨rfl, (h2 hd).2⟩, Nat.zero_le _, h4⟩

theorem zero_ok_remove {v : Vec} {i : Nat} {r : Removed} (hz : ZeroOK v)
    (h : vec_remove v i = some r) : ZeroOK r.vec := by
  obtain ⟨h1, h2, h3, h4⟩ := hz
  rcases vec_remove_some h with ⟨-, rfl⟩ | ⟨hi, -, rfl⟩ | ⟨hi, -, b, moved, hb, hm, rfl⟩
  · exact ⟨h1, h2, h3, h4⟩
  · rw [subW_of_le (by omega)]
    refine ⟨h1, ?_, by dsimp only; omega, h4⟩
    intro hd
    have := (h2 hd).1
    omega
  · rw [subW_of_le (by omega)]
    have hl := memmove_length hm
    simp only [bufSize, contents, hb] at h1
    refine ⟨?_, by simp, by dsimp only; omega, h4⟩
    simp only [bufSize, contents]
    omega

theorem zero_ok_reserve {v : Vec} (hz : ZeroOK v) (hes : v.elem_size = 0) {n : Nat}
    (hn : n ≤ SIZE_MAX) (o : Option Fresh) : ZeroOK (vec_reserve v n o).vec := by
  by_cases h1 : n ≤ v.capacity
  · rw [vec_reserve_noop o h1]
    exact hz
  · unfold vec_reserve
    rw [if_neg h1, if_neg (by intro h; exact h.1 hes)]
    cases o with
    | none => exact hz
    | some f =>
      simp only [realloc]
      refine ⟨?_, by simp, hz.2.2.1, hn⟩
      simp only [bufSize, contents, resize_length, hes, Nat.mul_zero]
      rfl

theorem zero_ok_shrink {v : Vec} (hz : ZeroOK v) (hes : v.elem_size = 0) (o : Option Fresh) :
    ZeroOK (vec_shrink v o).vec := by
  by_cases h0 : v.len = 0
  · rw [vec_shrink_empty o h0]
    exact ⟨rfl, fun _ => ⟨h0, rfl⟩, hz.2.2.1, Nat.zero_le _⟩
  · cases o with
    | none =>
      rw [vec_shrink_none h0]
      exact hz
    | some f =>
      rw [vec_shrink_some f h0]
      refine ⟨?_, by simp, hz.2.2.1, hz.2.2.1⟩
      simp only [bufSize, contents, resize_length, hes, Nat.mul_zero]
      rfl

theorem zero_ok_destroy {v w : Vec} {l : Lifetime} (h : vec_destroy v l = some w) :
    ZeroOK w := by
  rw [vec_destroy_some h]
  unfold ZeroOK bufSize contents
  simp

theorem apply_sound {v w : Vec} {op : Op} (hs : Sound v) (ht : op.typed)
    (h : op.apply v = some w) : Sound w := by
  by_cases hes : v.elem_size = 0
  · have hz := hs.2 hes
    have hw : ZeroOK w := by
      cases op with
      | push elem o =>
        simp only [Op.apply, Option.map_eq_some'] at h
        obtain ⟨r, hr, rfl⟩ := h
        exact zero_ok_push hz hes hr
      | pop =>
        simp only [Op.apply, Option.some.injEq] at h
        subst h
        exact zero_ok_pop hz
      | clear =>
        simp only [Op.apply, Option.some.injEq] at h
        subst h
        exact zero_ok_clear hz
      | remove i =>
        simp only [Op.apply, Option.map_eq_some'] at h
        obtain ⟨r, hr, rfl⟩ := h
        exact zero_ok_remove hz hr
      | reserve n o =>
        simp only [Op.apply, Option.some.injEq] at h
        subst h
        exact zero_ok_reserve hz hes ht o
      | shrink o =>
        simp only [Op.apply, Option.some.injEq] at h
        subst h
        exact zero_ok_shrink hz hes o
      | destroy =>
        simp only [Op.apply] at h
        exact zero_ok_destroy h
    have hwes : w.elem_size = 0 := by
      rcases apply_elem_size h with h1 | h1
      · rw [h1, hes]
      · exact h1
    exact ⟨fun hne => absurd hwes hne, fun _ => hw⟩
  · have hg : Good w := apply_good (hs.1 hes) ht (fun _ _ _ => Or.inl hes) h
    exact ⟨fun _ => hg, fun h0 => good_zero_ok hg h0⟩

theorem run_sound {ops : List Op} {v w : Vec} (hs : Sound v) (ht : ∀ op ∈ ops, op.typed)
    (h : run v ops = some w) : Sound w := by
  induction ops generalizing v with
  | nil =>
    simp only [run, Option.some.injEq] at h
    subst h
    exact hs
  | cons op ops ih =>
    simp only [run, Option.bind_eq_some] at h
    obtain ⟨u, hu, hw⟩ := h
    exact ih (apply_sound hs (ht op (List.mem_cons_self _ _)) hu)
      (fun op2 h2 => ht op2 (List.mem_cons_of_mem _ h2)) hw

theorem reachable_sound {e : Nat} {v : Vec} (h : Reachable e v) : Sound v := by
  obtain ⟨he, ops, ht, hrun⟩ := h
  have hg := vec_new_good he
  exact run_sound ⟨fun _ => hg, fun h0 => good_zero_ok hg h0⟩ ht hrun

/-- In a sound state the block has exactly `capacity * elem_size` bytes, a
`size_t` value, and the `len` live elements fit in it. -/
theorem sound_sizes {v : Vec} (hs : Sound v) :
    v.capacity * v.elem_size ≤ SIZE_MAX ∧ bufSize v = v.capacity * v.elem_size ∧
      v.len * v.elem_size ≤ bufSize v ∧ v.len ≤ SIZE_MAX := by
  by_cases hes : v.elem_size = 0
  · obtain ⟨h1, -, h3, -⟩ := hs.2 hes
    rw [hes, Nat.mul_zero, Nat.mul_zero, h1]
    exact ⟨Nat.zero_le _, rfl, Nat.le_refl _, h3⟩
  · obtain ⟨⟨h1, -⟩, h3, h4, h5, -⟩ := hs.1 hes
    have : v.len * v.elem_size ≤ v.capacity * v.elem_size := Nat.mul_le_mul_right _ h1
    exact ⟨h4, h3, by omega, by omega⟩

theorem vec_push_request {v : Vec} {elem : List Byte} {o : Option Fresh}
    {r : Outcome (Option Nat)} {q : Nat} (h : vec_push v elem o = some r)
    (hq : r.request = some q) :
    v.len = v.capacity ∧ ∃ nc, push_new_cap v = some nc ∧
      ¬(v.elem_size ≠ 0 ∧ nc > SIZE_MAX / v.elem_size) ∧ q = sz (nc * v.elem_size) ∧
      (r.ret ≠ none → r.vec.capacity = nc) := by
  by_cases hlc : v.len = v.capacity
  · refine ⟨hlc, ?_⟩
    unfold vec_push at h
    rw [if_pos hlc] at h
    split at h
    · simp only [Option.some.injEq] at h
      subst h
      simp at hq
    · rename_i nc hnc
      split at h
      · simp only [Option.some.injEq] at h
        subst h
        simp at hq
      · rename_i hg
        refine ⟨nc, hnc, hg, ?_⟩
        cases o with
        | none =>
          simp only [realloc, Option.some.injEq] at h
          subst h
          simp only [Option.some.injEq] at hq
          exact ⟨hq.symm, fun hne => absurd rfl hne⟩
        | some f =>
          simp only [realloc] at h
          obtain ⟨b, bytes, -, -, rfl⟩ := push_copy_some h
          simp only [Option.some.injEq] at hq
          exact ⟨hq.symm, fun _ => rfl⟩
  · rw [vec_push_room elem o hlc] at h
    obtain ⟨b, bytes, -, -, rfl⟩ := push_copy_some h
    simp at hq

theorem vec_reserve_request {v : Vec} {n q : Nat} {o : Option Fresh}
    (hq : (vec_reserve v n o).request = some q) : q = n * v.elem_size := by
  by_cases h1 : n ≤ v.capacity
  · rw [vec_reserve_noop o h1] at hq
    simp at hq
  · by_cases h2 : v.elem_size ≠ 0 ∧ n > SIZE_MAX / v.elem_size
    · rw [vec_reserve_overflow o (by omega) h2] at hq
      simp at hq
    · unfold vec_reserve at hq
      rw [if_neg h1, if_neg h2] at hq
      cases o with
      | none =>
        simp only [realloc, Option.some.injEq] at hq
        rw [← hq, sz_of_le (reserve_size_exact h2)]
      | some f =>
        simp only [realloc, Option.some.injEq] at hq
        rw [← hq, sz_of_le (reserve_size_exact h2)]

/-- C18. Exact buffer size: in every state reachable from `vec_new`, the exact
product `capacity * elem_size` is at most `SIZE_MAX` and is the size of the
block `data` points at; every byte count `vec_push`, `vec_reserve` and
`vec_shrink` pass to `realloc` is the exact product (no `size_t` wrap); and
every offset `i * elem_size` with `i <= len` is exact and lies within the
block. -/
theorem exact_buffer_size (e : Nat) (v : Vec) (hr : Reachable e v) :
    v.capacity * v.elem_size ≤ SIZE_MAX ∧ bufSize v = v.capacity * v.elem_size ∧
    v.len ≤ SIZE_MAX ∧
    (∀ i, i ≤ v.len → sz (i * v.elem_size) = i * v.elem_size ∧ i * v.elem_size ≤ bufSize v) ∧
    (∀ elem o r q, vec_push v elem o = some r → r.request = some q →
      ∃ nc, push_new_cap v = some nc ∧ q = nc * v.elem_size ∧
        (r.ret ≠ none → r.vec.capacity = nc)) ∧
    (∀ n o q, (vec_reserve v n o).request = some q → q = n * v.elem_size) ∧
    (∀ o q, (vec_shrink v o).request = some q → q = v.len * v.elem_size) := by
  obtain ⟨h1, h2, h3, h4⟩ := sound_sizes (reachable_sound hr)
  refine ⟨h1, h2, h4, ?_, ?_, ?_, ?_⟩
  · intro i hi
    have : i * v.elem_size ≤ v.len * v.elem_size := Nat.mul_le_mul_right _ hi
    exact ⟨sz_of_le (by omega), by omega⟩
  · intro elem o r q h hq
    obtain ⟨-, nc, hnc, hg, hq2, hcap⟩ := vec_push_request h hq
    exact ⟨nc, hnc, by rw [hq2, sz_of_le (reserve_size_exact hg)], hcap⟩
  · intro n o q hq
    exact vec_reserve_request hq
  · intro o q hq
    by_cases h0 : v.len = 0
    · rw [vec_shrink_empty o h0] at hq
      simp at hq
    · have hfit : v.len * v.elem_size ≤ SIZE_MAX := by omega
      cases o with
      | none =>
        rw [vec_shrink_none h0] at hq
        simp only [Option.some.injEq] at hq
        rw [← hq, sz_of_le hfit]
      | some f =>
        rw [vec_shrink_some f h0] at hq
        simp only [Option.some.injEq] at hq
        rw [← hq, sz_of_le hfit]

/-! ## Iteration -/

theorem walk_range {a step : Nat} (hstep : 0 < step) (m k fuel : Nat) (hf : m ≤ fuel) :
    walk (a + k * step) (a + (k + m) * step) step fuel =
      (List.range' k m).map (fun j => a + j * step) := by
  induction m generalizing k fuel with
  | zero =>
    cases fuel with
    | zero => rfl
    | succ f =>
      simp only [walk, Nat.add_zero, if_true, List.range'_zero, List.map_nil]
  | succ m ih =>
    cases fuel with
    | zero => omega
    | succ f =>
      have hne : a + k * step ≠ a + (k + (m + 1)) * step := by
        have h1 : (k + (m + 1)) * step = k * step + (m + 1) * step := Nat.add_mul _ _ _
        have h2 : (m + 1) * step = m * step + step := by ring
        omega
      have hnext : a + k * step + step = a + (k + 1) * step := by
        have h1 : (k + 1) * step = k * step + step := by ring
        omega
      have hend : k + (m + 1) = k + 1 + m := by omega
      simp only [walk, if_neg hne, List.range'_succ, List.map_cons]
      rw [hnext, hend, ih (k + 1) f (by omega)]

/-- On a vector with a block and a non-zero element size that satisfies the
invariants, the walk from `vec_begin` to `vec_end` stops by itself after `len`
elements and visits the addresses of slots `0 .. len - 1`. -/
theorem traverse_slots {v : Vec} {b : Block} (hg : Good v) (hes : v.elem_size ≠ 0)
    (hb : v.data = some b) {fuel : Nat} (hf : v.len ≤ fuel) :
    traverse v fuel = (List.range v.len).map (fun k => b.addr + k * v.elem_size) := by
  have hexact := live_size_exact hg
  unfold traverse vec_begin vec_end
  simp only [hb, Option.map_some', sz_of_le hexact]
  have := walk_range (a := b.addr) (Nat.pos_of_ne_zero hes) v.len 0 fuel hf
  simp only [Nat.zero_mul, Nat.add_zero, Nat.zero_add] at this
  rw [this, List.range_eq_range']

/-- C15 (as amended). Iteration range: on a vector that satisfies the data-model
invariants, `vec_begin(v) == vec_end(v)` whenever `len == 0` (both `NULL` when
there is no buffer); when a buffer exists `vec_end(v)` is `vec_begin(v)` plus
exactly `len * elem_size` bytes and `k` steps from `vec_begin` land on the slot
of `vec_at(v, k)` for every `k < len`; and when moreover `elem_size != 0`, `k`
steps from `vec_begin` land on `vec_end` exactly when `k == len`, so the walk
from `vec_begin` to `vec_end` stops after exactly `len` steps and visits
`vec_at(v, 0)`, ..., `vec_at(v, len - 1)` in this order. -/
theorem iteration_range (v : Vec) (hg : Good v) :
    (v.len = 0 → vec_begin v = vec_end v) ∧
    (v.data = none → vec_begin v = none ∧ vec_end v = none) ∧
    (∀ b, v.data = some b →
      vec_begin v = some b.addr ∧ vec_end v = some (b.addr + v.len * v.elem_size) ∧
      (∀ k, k < v.len → vec_at v k = some (b.addr + k * v.elem_size)) ∧
      (v.elem_size ≠ 0 →
        (∀ k, b.addr + k * v.elem_size = b.addr + v.len * v.elem_size ↔ k = v.len) ∧
        (∀ fuel, v.len ≤ fuel →
          (traverse v fuel).length = v.len ∧
          (traverse v fuel).map some = (List.range v.len).map (vec_at v)))) := by
  have hexact := live_size_exact hg
  refine ⟨?_, ?_, ?_⟩
  · intro h0
    unfold vec_begin vec_end
    cases hd : v.data with
    | none => rfl
    | some b =>
      simp only [Option.map_some', h0, Nat.zero_mul]
      rfl
  · intro hd
    simp [vec_begin, vec_end, hd]
  · intro b hb
    have hat : ∀ k, k < v.len → vec_at v k = some (b.addr + k * v.elem_size) := by
      intro k hk
      have h1 := slot_mul_le v.elem_size hk
      rw [vec_at_some hb hk, sz_of_le (by omega)]
    refine ⟨?_, ?_, hat, ?_⟩
    · unfold vec_begin
      rw [hb]
      rfl
    · unfold vec_end
      simp only [hb, sz_of_le hexact]
    · intro hes
      have hpos : 0 < v.elem_size := Nat.pos_of_ne_zero hes
      refine ⟨?_, ?_⟩
      · intro k
        constructor
        · intro h
          have h1 : k * v.elem_size = v.len * v.elem_size := by omega
          exact Nat.eq_of_mul_eq_mul_right hpos h1
        · intro h
          rw [h]
      · intro fuel hf
        rw [traverse_slots hg hes hb hf]
        refine ⟨by simp, ?_⟩
        rw [List.map_map]
        apply List.map_congr_left
        intro k hk
        exact (hat k (List.mem_range.1 hk)).symm

/-- C15 (counterexample). The zero-size vector after one push satisfies the
invariants and holds one element, yet `vec_begin(v) == vec_end(v)`: zero steps
from `vec_begin` already land on `vec_end` (not exactly `len == 1` steps), and
the walk from `vec_begin` to `vec_end` visits no slot. -/
theorem iteration_range_counterexample :
    Good (zero_size 1 1) ∧ Reachable 0 (zero_size 1 1) ∧ (zero_size 1 1).len = 1 ∧
    vec_begin (zero_size 1 1) = some 1 ∧ vec_end (zero_size 1 1) = some 1 ∧
    1 + 0 * (zero_size 1 1).elem_size = 1 + (zero_size 1 1).len * (zero_size 1 1).elem_size ∧
    traverse (zero_size 1 1) 8 = [] ∧
    (List.range (zero_size 1 1).len).map (vec_at (zero_size 1 1)) = [some 1] := by
  exact ⟨by decide, zero_size_reachable (by decide) (by decide) (Nat.le_refl _), rfl,
    by decide, by decide, by decide, by decide, by decide⟩

theorem iteration_range_witness :
    Good five_ints ∧ vec_begin five_ints = some 4096 ∧ vec_end five_ints = some 4116 ∧
    (traverse five_ints 9).length = 5 ∧ traverse five_ints 9 = [4096, 4100, 4104, 4108, 4112] :=
  have h := (iteration_range five_ints (by decide)).2.2 ⟨4096, _⟩ rfl
  ⟨by decide, h.1, h.2.1, ((h.2.2.2 (by decide)).2 9 (by decide)).1, by decide⟩

/-! ## `vec_pop`, `vec_clear` and the state machine -/

/-- `vec_pop` and `vec_clear` touch `len` only. -/
theorem pop_clear_frame (v : Vec) :
    (vec_pop v).len = v.len - 1 ∧ (vec_pop v).data = v.data ∧
    (vec_pop v).capacity = v.capacity ∧ (vec_pop v).elem_size = v.elem_size ∧
    (vec_clear v).len = 0 ∧ (vec_clear v).data = v.data ∧
    (vec_clear v).capacity = v.capacity ∧ (vec_clear v).elem_size = v.elem_size := by
  refine ⟨?_, ?_, ?_, ?_, rfl, rfl, rfl, rfl⟩
  · unfold vec_pop
    split
    · exact subW_of_le (by omega)
    · omega
  · unfold vec_pop
    split <;> rfl
  · unfold vec_pop
    split <;> rfl
  · unfold vec_pop
    split <;> rfl

theorem elems_of_slots {v w : Vec} (hlen : w.len = v.len)
    (h : ∀ i, i < v.len → slot w i = slot v i) : elems w = elems v := by
  unfold elems
  rw [hlen]
  apply List.map_congr_left
  intro i hi
  exact h i (List.mem_range.1 hi)

theorem slot_congr {v w : Vec} (hd : w.data = v.data) (hes : w.elem_size = v.elem_size)
    (i : Nat) : slot w i = slot v i := by
  unfold slot
  rw [hd, hes]

/-- A push that returned a slot followed by a pop restores `len` and the live
elements, on a vector that satisfies the invariants and is not about to take
the zero-size overflow branch. -/
theorem push_pop_restores {v : Vec} {x : List Byte} {o : Option Fresh}
    {r : Outcome (Option Nat)} (hg : Good v) (hn : NoZeroWrap v)
    (h : vec_push v x o = some r) (hr : r.ret ≠ none) :
    (vec_pop r.vec).len = v.len ∧ elems (vec_pop r.vec) = elems v := by
  obtain ⟨hlen, hslots, -⟩ := push_postcondition hg hn h hr
  obtain ⟨p1, p2, -, p4, -⟩ := pop_clear_frame r.vec
  have hl : (vec_pop r.vec).len = v.len := by rw [p1, hlen, Nat.add_sub_cancel]
  refine ⟨hl, elems_of_slots hl ?_⟩
  intro i hi
  rw [slot_congr p2 p4 i, hslots i hi]

/-- C12 (the code at the failing input). On the zero-size vector with
`len == capacity == SIZE_MAX`, which satisfies the invariants and is reachable
from `vec_new(0)`, `vec_push` returns a slot and the following `vec_pop` leaves
`len == 0`: neither the previous `len` (`SIZE_MAX`) nor the previous sequence of
live elements is restored. -/
theorem zero_size_push_pop_loses_len :
    Good (zero_size SIZE_MAX SIZE_MAX) ∧ Reachable 0 (zero_size SIZE_MAX SIZE_MAX) ∧
    (vec_push (zero_size SIZE_MAX SIZE_MAX) [] (some ⟨1, []⟩)).map
        (fun r => (r.ret, vec_pop r.vec)) = some (some 1, zero_size 0 0) ∧
    (zero_size 0 0).len ≠ (zero_size SIZE_MAX SIZE_MAX).len ∧
    elems (zero_size 0 0) ≠ elems (zero_size SIZE_MAX SIZE_MAX) := by
  refine ⟨by decide, zero_size_reachable (by decide) (Nat.le_refl _) (Nat.le_refl _),
    by decide, by decide, ?_⟩
  intro h
  have h1 := congrArg List.length h
  rw [elems_length, elems_length] at h1
  exact absurd h1 (by decide)

theorem vec_push_keeps_allocated {v : Vec} {elem : List Byte} {o : Option Fresh}
    {r : Outcome (Option Nat)} (ha : Allocated v) (hn : NoZeroWrap v)
    (h : vec_push v elem o = some r) : Allocated r.vec := by
  by_cases hr : r.ret = none
  · rw [(vec_push_null h hr).1]
    exact ha
  · rcases vec_push_success h hr with ⟨-, hc⟩ | ⟨hlc, nc, f, hnc, hg2, -, hc⟩
    · obtain ⟨b, bytes, -, -, rfl⟩ := push_copy_some hc
      exact ⟨ha.1, by simp⟩
    · obtain ⟨b, bytes, -, -, rfl⟩ := push_copy_some hc
      have hn2 : v.elem_size ≠ 0 ∨ v.capacity ≤ SIZE_MAX / 2 := by
        rcases hn with h1 | h1 | h1
        · exact Or.inl h1
        · omega
        · exact Or.inr h1
      obtain ⟨-, -, -, hlt⟩ := push_new_cap_good hn2 hnc hg2
      exact ⟨by dsimp only; omega, by simp⟩

/-- From the allocated state, every call other than `vec_destroy`, `vec_shrink`
with `len == 0`, and the push that takes the zero-size overflow branch, leaves
the vector allocated, whatever the allocator answers. -/
theorem apply_keeps_allocated {v w : Vec} {op : Op} (ha : Allocated v)
    (hd : op ≠ Op.destroy) (hs : ∀ o, op = Op.shrink o → v.len ≠ 0)
    (hp : ∀ elem o, op = Op.push elem o → NoZeroWrap v) (h : op.apply v = some w) :
    Allocated w := by
  cases op with
  | push elem o =>
    simp only [Op.apply, Option.map_eq_some'] at h
    obtain ⟨r, hr, rfl⟩ := h
    exact vec_push_keeps_allocated ha (hp elem o rfl) hr
  | pop =>
    simp only [Op.apply, Option.some.injEq] at h
    subst h
    obtain ⟨-, p2, p3, -⟩ := pop_clear_frame v
    exact ⟨by rw [p3]; exact ha.1, by rw [p2]; exact ha.2⟩
  | clear =>
    simp only [Op.apply, Option.some.injEq] at h
    subst h
    exact ha
  | remove i =>
    simp only [Op.apply, Option.map_eq_some'] at h
    obtain ⟨r, hr, rfl⟩ := h
    rcases vec_remove_some hr with ⟨-, rfl⟩ | ⟨-, -, rfl⟩ | ⟨-, -, b, moved, -, -, rfl⟩
    · exact ha
    · exact ha
    · exact ⟨ha.1, by simp⟩
  | reserve n o =>
    simp only [Op.apply, Option.some.injEq] at h
    subst h
    by_cases h1 : n ≤ v.capacity
    · rw [vec_reserve_noop o h1]
      exact ha
    · by_cases h2 : v.elem_size ≠ 0 ∧ n > SIZE_MAX / v.elem_size
      · rw [vec_reserve_overflow o (by omega) h2]
        exact ha
      · unfold vec_reserve
        rw [if_neg h1, if_neg h2]
        cases o with
        | none => exact ha
        | some f =>
          simp only [realloc]
          exact ⟨by dsimp only; omega, by simp⟩
  | shrink o =>
    simp only [Op.apply, Option.some.injEq] at h
    subst h
    have h0 := hs o rfl
    cases o with
    | none =>
      rw [vec_shrink_none h0]
      exact ha
    | some f =>
      rw [vec_shrink_some f h0]
      exact ⟨by dsimp only; omega, by simp⟩
  | destroy => exact absurd rfl hd

/-- The only calls that take an allocated vector to the empty state are
`vec_destroy` and `vec_shrink` with `len == 0`. -/
theorem only_shrink_or_destroy_empties {v w : Vec} {op : Op} (ha : Allocated v)
    (h : op.apply v = some w) (he : Empty w) :
    op = Op.destroy ∨ ∃ o, op = Op.shrink o ∧ v.len = 0 := by
  cases op with
  | push elem o =>
    exfalso
    simp only [Op.apply, Option.map_eq_some'] at h
    obtain ⟨r, hr, rfl⟩ := h
    by_cases hret : r.ret = none
    · rw [(vec_push_null hr hret).1] at he
      exact ha.2 he.2
    · rcases vec_push_success hr hret with ⟨-, hc⟩ | ⟨-, nc, f, -, -, -, hc⟩
      · obtain ⟨b, bytes, -, -, rfl⟩ := push_copy_some hc
        simp [Empty] at he
      · obtain ⟨b, bytes, -, -, rfl⟩ := push_copy_some hc
        simp [Empty] at he
  | destroy => exact Or.inl rfl
  | shrink o =>
    right
    refine ⟨o, rfl, ?_⟩
    by_contra h0
    exact absurd he
      (fun hem => (apply_keeps_allocated ha (by simp) (fun _ _ => h0) (by simp) h).2 hem.2)
  | pop =>
    exfalso
    exact (apply_keeps_allocated ha (by simp) (by simp) (by simp) h).2 he.2
  | clear =>
    exfalso
    exact (apply_keeps_allocated ha (by simp) (by simp) (by simp) h).2 he.2
  | remove i =>
    exfalso
    exact (apply_keeps_allocated ha (by simp) (by simp) (by simp) h).2 he.2
  | reserve n o =>
    exfalso
    exact (apply_keeps_allocated ha (by simp) (by simp) (by simp) h).2 he.2

/-- C16 (the code at the failing input). The full zero-size vector with
capacity 2^63 is allocated and reachable from `vec_new(0)`; `vec_push` on it,
the allocator answering with a block, leaves `capacity == 0` with a buffer: the
result is neither allocated nor empty. -/
theorem zero_size_push_leaves_allocated :
    Allocated (zero_size 9223372036854775808 9223372036854775808) ∧
    Reachable 0 (zero_size 9223372036854775808 9223372036854775808) ∧
    (Op.push [] (some ⟨1, []⟩)).apply (zero_size 9223372036854775808 9223372036854775808) =
      some (zero_size 9223372036854775809 0) ∧
    ¬ Allocated (zero_size 9223372036854775809 0) ∧
    ¬ Empty (zero_size 9223372036854775809 0) := by
  exact ⟨by decide, zero_size_reachable (by decide) (by decide) (Nat.le_refl _), by decide,
    by decide, by decide⟩

/-! ## More theorems at concrete vectors -/

theorem bounds_checked_access_witness :
    vec_at five_ints 2 = some (4096 + sz (2 * five_ints.elem_size)) ∧
    vec_at five_ints 2 = some 4104 ∧ vec_back five_ints = vec_at five_ints (five_ints.len - 1) :=
  have h := bounds_checked_access five_ints 2
  ⟨h.2.1 ⟨4096, _⟩ rfl (by decide), by decide, h.2.2.2.2 (by decide)⟩

theorem push_overflow_guard_exact_witness :
    full_pair.len = full_pair.capacity ∧
    ∃ r, vec_push full_pair [3, 0, 0, 0] (some ⟨8192, []⟩) = some r ∧ r.ret ≠ none ∧
      r.enomem = false ∧ r.request = some 16 ∧ r.vec.capacity = 4 ∧ r.vec.len = 3 :=
  ⟨rfl, (push_overflow_guard_exact full_pair [3, 0, 0, 0] (by decide) (by decide) rfl
    (by decide)).2.1 (by decide) |>.2 ⟨8192, []⟩⟩

theorem exact_buffer_size_witness :
    Reachable 4 five_ints ∧ five_ints.capacity * five_ints.elem_size ≤ SIZE_MAX ∧
    bufSize five_ints = five_ints.capacity * five_ints.elem_size :=
  have h := exact_buffer_size 4 five_ints five_ints_reachable
  ⟨five_ints_reachable, h.1, h.2.1⟩

theorem second_guard_dead_witness :
    push_new_cap full_pair = some 4 ∧
    ¬(full_pair.elem_size ≠ 0 ∧ 4 > SIZE_MAX / full_pair.elem_size) :=
  ⟨by decide, (second_guard_dead full_pair (by decide)).1 4 (by decide)⟩

end CVec
